import Mathlib

/-!
The package `layerfs`: a layered (union) read-only filesystem.

A verification development over a shallow embedding of `layerfs.go`.

Conventions of the embedding:

* a Go pair `(value, error)` is a Lean pair of options, `none` standing for `nil`;
  the pair returned by `Stat` of a backend handle is an `Except`: an info, or an
  error;
* a Go slice that may be `nil` is an `Option (List _)`, `none` standing for the
  `nil` slice and `some []` for an empty slice that is not `nil`; a slice that is
  only returned is a `List`, `[]` standing for `nil`;
* a run-time panic of the Go code (a method call on a `nil` interface) is
  `Except.error`;
* the iteration order of a Go map is not specified: every function that ranges
  over a map takes a `MapOrder`, an arbitrary rearrangement of the map's values;
* `fs.Sub`, `fs.ValidPath` and `filepath.Join` (with the separator `/`) are
  functions of the standard library, embedded from their behaviour there: `fs.Sub`
  checks that the path is valid and wraps the backend, it does not open the path;
* for the question whether `Add` can change a directory that is already open, the
  field `Layers` is a slice in a memory of arrays (`Heap`, `Slice`), with the
  composite literal and the built-in `append` of the language; everywhere else the
  layers are the list of the elements of that slice.
-/

namespace layerfs

/-! ## Values of the standard library used by the package -/

/-- Go error values: the sentinels of `io/fs` and `io`, `*fs.PathError`, and any
other error of a backend. -/
inductive Error where
  | ErrInvalid
  | ErrPermission
  | ErrExist
  | ErrNotExist
  | ErrClosed
  | EOF
  | PathError (op : String) (path : String) (err : Error)
  | other (msg : String)
  deriving DecidableEq, Repr

/-- A run-time panic of the Go code. -/
inductive Panic where
  | nilDereference
  | cantFind (dir : List String) (err : Error)
  deriving DecidableEq, Repr

/-- The value `time.Time` (wall and monotonic readings; the zero value is the zero time). -/
structure Time where
  wall : Nat
  ext : Int
  deriving DecidableEq, Repr

/-- The observable part of an `fs.FileInfo` (`Sys` is left out). -/
structure FileInfo where
  Name : String
  Size : Int
  Mode : Nat
  ModTime : Time
  IsDir : Bool
  deriving DecidableEq, Repr

/-- The observable part of an `fs.DirEntry`. -/
structure DirEntry where
  Name : String
  IsDir : Bool
  Typ : Nat
  Info : Option FileInfo × Option Error
  deriving DecidableEq, Repr

/-- A handle of a backend (`fs.File`): an object with a state and the behaviour of
its three methods in each state. `StatFn s` is what `Stat()` returns in state `s`
(an info, or an error); `ReadFn s k` is what `Read` returns for a buffer of
length `k` (the bytes stored and the error) and the next state; `CloseFn s` is
what `Close()` returns and the next state. -/
structure File where
  state : Nat
  StatFn : Nat → Except Error FileInfo
  ReadFn : Nat → Nat → (List Nat × Option Error) × Nat
  CloseFn : Nat → Option Error × Nat

/-- The method `Stat()` of a backend handle. -/
def File.Stat (f : File) : Except Error FileInfo :=
  f.StatFn f.state

/-- A filesystem backend (`fs.FS`): `Open name` is what its `Open` returns, and
`ReadDir name` is what `fs.ReadDir(backend, name)` returns. -/
structure Backend where
  Open : String → Option File × Option Error
  ReadDir : String → List DirEntry × Option Error

/-- The function `strings.Contains`. -/
def stringsContains (s substr : String) : Bool :=
  decide (substr.data <:+: s.data)

/-! ## The package -/

/-- The struct `Layer`: a backend and the label of the place that added it. -/
structure Layer where
  FS : Backend
  Name : String

/-- The struct `FS`: the layers, index 0 first. -/
structure FS where
  Layers : List Layer

/-- The struct `directory`. -/
structure directory where
  entries : Option (List DirEntry)
  FS : FS
  path : String
  file : Option File

/-- The dynamic type of a non-nil `fs.File` returned by `FS.Open`: a handle of a
backend, or a `*directory`. -/
inductive Handle where
  | file (f : File)
  | dir (d : directory)

/-- The function `New`. -/
def New : FS := { Layers := [] }

/-- The loop of `FS.Add` over `runtime.Caller(i + 1)` for `i` from `i` up to 5,
with `file`, `line` the values of the variables before the iteration. -/
def callerLoop (Caller : Nat → String × Nat × Bool) : Nat → Nat → String × Nat → String × Nat
  | 0, _, acc => acc
  | fuel + 1, i, _ =>
    let r := Caller (i + 1)
    let file := r.1
    let line := r.2.1
    let ok := r.2.2
    if !ok then (file, line)
    else if !stringsContains file "golazy/lazyview" && !stringsContains file "golazy/lazyapp" then
      (file, line)
    else callerLoop Caller fuel (i + 1) (file, line)

/-- The method `FS.Add`; `Caller` is `runtime.Caller` at the call. -/
def FS.Add (f : FS) (Caller : Nat → String × Nat × Bool) (dir : Backend) : FS :=
  let fl := callerLoop Caller 6 0 ("", 0)
  let fl := if fl.1 = "" then ("UNKNOWN", 0) else fl
  let l : Layer := { FS := dir, Name := fl.1 ++ ":" ++ toString fl.2 }
  { Layers := [l] ++ f.Layers }

/-- The loop of `FS.Open` over the layers; `f`, `err` are the named results before
the iteration. -/
def openLoop (filesystem : FS) (name : String) :
    List Layer → Option Handle × Option Error → Except Panic (Option Handle × Option Error)
  | [], acc => .ok acc
  | layer :: rest, _ =>
    match layer.FS.Open name with
    | (f, none) =>
      match f with
      | none => .error .nilDereference
      | some h =>
        match h.Stat with
        | .error _ => .ok (some (.file h), none)
        | .ok stat =>
          if stat.IsDir then
            .ok (some (.dir { entries := none, FS := filesystem, path := name, file := some h }), none)
          else .ok (some (.file h), none)
    | (f, some err) => openLoop filesystem name rest (f.map Handle.file, some err)

/-- The method `FS.Open`. -/
def FS.Open (filesystem : FS) (name : String) : Except Panic (Option Handle × Option Error) :=
  if name = "/" then .ok (none, some .ErrPermission)
  else if name = "." ∨ name = "" then
    .ok (some (.dir { entries := none, FS := filesystem, path := name, file := none }), none)
  else openLoop filesystem name filesystem.Layers (none, none)

/-- The order in which a `range` over a Go map visits the values: some
rearrangement of them. -/
structure MapOrder where
  range : List DirEntry → List DirEntry
  perm : ∀ l, (range l).Perm l

/-- The map `results` of `ReadDir`, as the list of its bindings (keys distinct). -/
abbrev Results := List (String × DirEntry)

/-- The inner loop of `ReadDir`: the entries of one layer. -/
def mergeEntries (results : Results) : List DirEntry → Results
  | [] => results
  | entry :: rest =>
    let name := entry.Name
    if (results.lookup name).isNone then mergeEntries (results ++ [(name, entry)]) rest
    else mergeEntries results rest

/-- The outer loop of `ReadDir`: the layers. -/
def mergeLayers (path : String) (results : Results) : List Layer → Results
  | [] => results
  | layer :: rest =>
    match layer.FS.ReadDir path with
    | (_, some _) => mergeLayers path results rest
    | (entries, none) => mergeLayers path (mergeEntries results entries) rest

/-- The loop `d.entries = append(d.entries, entry)` over the values of the map. -/
def appendAll (entries : Option (List DirEntry)) : List DirEntry → Option (List DirEntry)
  | [] => entries
  | entry :: rest => appendAll (some (entries.getD [] ++ [entry])) rest

/-- The first part of `ReadDir`: the merge, done when `d.entries` is `nil`. -/
def directory.fill (o : MapOrder) (d : directory) : directory :=
  match d.entries with
  | none =>
    let results := mergeLayers d.path [] d.FS.Layers
    { d with entries := appendAll d.entries (o.range (results.map Prod.snd)) }
  | some _ => d

/-- The method `directory.ReadDir`: the entries and error returned, and the
directory afterwards. -/
def directory.ReadDir (o : MapOrder) (d : directory) (n : Int) :
    (List DirEntry × Option Error) × directory :=
  let d := d.fill o
  let buf := d.entries.getD []
  if n > 0 ∧ buf.length = 0 then (([], some .EOF), d)
  else if buf.length = 0 then (([], none), d)
  else
    let stop := if n > 0 ∧ (buf.length : Int) > n then n.toNat else buf.length
    ((buf.take stop, none), { d with entries := some (buf.drop stop) })

/-- The loop of `TestOpenDir`: call `ReadDir(n)` until it returns `io.EOF`, call
number `i` ranging over the map in the order `os i`. The result is the list of
pages and the directory afterwards, `none` when the fuel runs out or a call
returns another error. -/
def readPages (os : Nat → MapOrder) (n : Int) :
    Nat → Nat → directory → Option (List (List DirEntry) × directory)
  | 0, _, _ => none
  | fuel + 1, i, d =>
    let r := d.ReadDir (os i) n
    match r.1.2 with
    | some .EOF => some ([], r.2)
    | some _ => none
    | none => (readPages os n fuel (i + 1) r.2).map (fun p => (r.1.1 :: p.1, p.2))

/-- The method `Read` of a backend handle, for a buffer of length `k`: the bytes
stored in the buffer (their number is the `n` returned) and the error, and the
handle afterwards. -/
def File.Read (f : File) (k : Nat) : (List Nat × Option Error) × File :=
  let r := f.ReadFn f.state k
  (r.1, { f with state := r.2 })

/-- The method `Close()` of a backend handle, and the handle afterwards. -/
def File.Close (f : File) : Option Error × File :=
  let r := f.CloseFn f.state
  (r.1, { f with state := r.2 })

/-- The constant `fs.ModeDir`. -/
def ModeDir : Nat := 1 <<< 31

/-- The struct `fakeFileInfo`. -/
structure fakeFileInfo where
  path : String

/-- The method `fakeFileInfo.Name`. -/
def fakeFileInfo.Name (f : fakeFileInfo) : String := f.path

/-- The method `fakeFileInfo.Size`. -/
def fakeFileInfo.Size (_f : fakeFileInfo) : Int := 0

/-- The method `fakeFileInfo.Mode`. -/
def fakeFileInfo.Mode (_f : fakeFileInfo) : Nat := ModeDir ||| 0o755

/-- The method `fakeFileInfo.ModTime`: the zero `time.Time`. -/
def fakeFileInfo.ModTime (_f : fakeFileInfo) : Time := { wall := 0, ext := 0 }

/-- The method `fakeFileInfo.IsDir`. -/
def fakeFileInfo.IsDir (_f : fakeFileInfo) : Bool := true

/-- A `fakeFileInfo` as an `fs.FileInfo`: what its methods return. -/
def fakeFileInfo.toFileInfo (f : fakeFileInfo) : FileInfo :=
  { Name := f.Name, Size := f.Size, Mode := f.Mode, ModTime := f.ModTime, IsDir := f.IsDir }

/-- The method `directory.Stat`. -/
def directory.Stat (d : directory) : Except Error FileInfo :=
  match d.file with
  | none => .ok (fakeFileInfo.toFileInfo { path := d.path })
  | some f => f.Stat

/-- The method `directory.Read`, for a buffer of length `k`: the bytes stored and
the error, and the directory afterwards. -/
def directory.Read (d : directory) (k : Nat) : (List Nat × Option Error) × directory :=
  match d.file with
  | none => (([], some .ErrInvalid), d)
  | some f =>
    let r := f.Read k
    (r.1, { d with file := some r.2 })

/-- The method `directory.Close`: the error returned and the directory afterwards. -/
def directory.Close (d : directory) : Option Error × directory :=
  let d : directory := { d with entries := none }
  match d.file with
  | none => (none, d)
  | some f =>
    let r := f.Close
    (r.1, { d with file := some r.2 })

/-- The directory after a sequence of calls of `ReadDir`, each with its map order
and its `n`. -/
def directory.afterCalls (calls : List (MapOrder × Int)) (d : directory) : directory :=
  calls.foldl (fun x c => (x.ReadDir c.1 c.2).2) d

/-! ## Subdirectories -/

/-- The elements of a path between the slashes; `cur` holds, reversed, the characters
of the element that is being read. -/
def splitSlash : List Char → List Char → List (List Char)
  | [], cur => [cur.reverse]
  | c :: cs, cur =>
    if c = '/' then cur.reverse :: splitSlash cs [] else splitSlash cs (c :: cur)

/-- The function `fs.ValidPath`: the path is `.`, or none of its elements is empty,
`.` or `..`. -/
def ValidPath (name : String) : Bool :=
  name == "." ||
    (splitSlash name.data []).all (fun elem => !(elem == [] || elem == ['.'] || elem == ['.', '.']))

/-- The elements kept by `filepath.Clean`; `out` holds, reversed, those kept so far. -/
def cleanElems (rooted : Bool) : List (List Char) → List (List Char) → List (List Char)
  | [], out => out.reverse
  | e :: es, out =>
    if e = [] ∨ e = ['.'] then cleanElems rooted es out
    else if e = ['.', '.'] then
      match out with
      | top :: rest =>
        if top = ['.', '.'] then cleanElems rooted es (e :: out) else cleanElems rooted es rest
      | [] => if rooted then cleanElems rooted es [] else cleanElems rooted es [e]
    else cleanElems rooted es (e :: out)

/-- The function `filepath.Clean` with the separator `/`. -/
def filepathClean (path : String) : String :=
  if path = "" then "."
  else
    let rooted := path.data.head? == some '/'
    let elems := cleanElems rooted (splitSlash path.data []) []
    let body := String.mk (List.intercalate ['/'] elems)
    if rooted then "/" ++ body else if elems = [] then "." else body

/-- The function `filepath.Join` with the separator `/`: the elements from the first
one that is not empty on, joined and cleaned. -/
def filepathJoin (elem : List String) : String :=
  match elem.dropWhile (fun e => e == "") with
  | [] => ""
  | rest => filepathClean (String.intercalate "/" rest)

/-- The function `path.Join` on a directory and a name that are both valid paths,
the directory not being `.`. -/
def joinValid (dir name : String) : String :=
  if name = "." then dir else dir ++ "/" ++ name

/-- What is left of the characters `s` after the leading characters `p`, if `s`
starts with them. -/
def dropLeading : List Char → List Char → Option (List Char)
  | [], s => some s
  | _ :: _, [] => none
  | c :: p, x :: s => if c = x then dropLeading p s else none

/-- The method `shorten` of the `subFS` of the standard library. -/
def shorten (dir name : String) : Option String :=
  if name = dir then some "."
  else
    match dropLeading (dir.data ++ ['/']) name.data with
    | some (c :: rest) => some (String.mk (c :: rest))
    | _ => none

/-- The method `fixErr` of the `subFS` of the standard library. -/
def fixErr (dir : String) : Option Error → Option Error
  | some (.PathError op path err) =>
    match shorten dir path with
    | some short => some (.PathError op short err)
    | none => some (.PathError op path err)
  | e => e

/-- The type `subFS` of the standard library: the backend `fsys` seen from its
subdirectory `dir`. -/
def subFS (fsys : Backend) (dir : String) : Backend :=
  { Open := fun name =>
      if !ValidPath name then (none, some (.PathError "open" name .ErrInvalid))
      else
        let r := fsys.Open (joinValid dir name)
        (r.1, fixErr dir r.2)
    ReadDir := fun name =>
      if !ValidPath name then ([], some (.PathError "read" name .ErrInvalid))
      else
        let r := fsys.ReadDir (joinValid dir name)
        (r.1, fixErr dir r.2) }

/-- The function `fs.Sub` of the standard library; `sub` is the method `Sub` of the
backend when the backend is an `fs.SubFS`. -/
def fsSub (fsys : Backend) (sub : Option (String → Option Backend × Option Error))
    (dir : String) : Option Backend × Option Error :=
  if !ValidPath dir then (none, some (.PathError "sub" dir .ErrInvalid))
  else if dir = "." then (some fsys, none)
  else
    match sub with
    | some m => m dir
    | none => (some (subFS fsys dir), none)

/-- The function `Dir`. -/
def Dir (f : Backend) (sub : Option (String → Option Backend × Option Error))
    (dir : List String) : Option Backend × Option Error :=
  fsSub f sub (filepathJoin dir)

/-- The function `MustDir`. -/
def MustDir (f : Backend) (sub : Option (String → Option Backend × Option Error))
    (dir : List String) : Except Panic (Option Backend) :=
  match Dir f sub dir with
  | (_, some err) => .error (.cantFind dir err)
  | (f, none) => .ok f

/-! ## The slice of layers in memory -/

/-- A Go slice of layers: the array it points to, the index of its first element
in that array, its length and its capacity. -/
structure Slice where
  arr : Nat
  off : Nat
  len : Nat
  cap : Nat

/-- The arrays of layers in memory: `slots a i` is element `i` of array `a` (`none`
where nothing was ever written), and `next` is the first array not allocated yet. -/
structure Heap where
  next : Nat
  slots : Nat → Nat → Option Layer

/-- The `k` elements of array `a` from index `i` on. -/
def Heap.read (h : Heap) (a : Nat) : Nat → Nat → List Layer
  | _, 0 => []
  | i, k + 1 =>
    match h.slots a i with
    | some x => x :: Heap.read h a (i + 1) k
    | none => Heap.read h a (i + 1) k

/-- The elements of a slice. -/
def Heap.view (h : Heap) (s : Slice) : List Layer :=
  h.read s.arr s.off s.len

/-- The composite literal `[]Layer{...}`: a new array that holds the elements, and
the slice of the whole of it. -/
def Heap.literal (h : Heap) (xs : List Layer) : Heap × Slice :=
  ({ next := h.next + 1, slots := fun a i => if a = h.next then xs[i]? else h.slots a i },
   { arr := h.next, off := 0, len := xs.length, cap := xs.length })

/-- The built-in `append(s, xs...)`: when the capacity of `s` has room for `xs`,
the elements are written in the array of `s` after those of `s`; otherwise a new
array, with `spare` more room than needed, receives the elements of `s` and then
`xs`. -/
def Heap.append (spare : Nat) (h : Heap) (s : Slice) (xs : List Layer) : Heap × Slice :=
  if s.len + xs.length ≤ s.cap then
    ({ h with
       slots := fun a i =>
         if a = s.arr ∧ s.off + s.len ≤ i ∧ i < s.off + s.len + xs.length then
           xs[i - (s.off + s.len)]?
         else h.slots a i },
     { s with len := s.len + xs.length })
  else
    ({ next := h.next + 1,
       slots := fun a i =>
         if a = h.next then (if i < s.len then h.slots s.arr (s.off + i) else xs[i - s.len]?)
         else h.slots a i },
     { arr := h.next, off := 0, len := s.len + xs.length, cap := s.len + xs.length + spare })

/-- The method `FS.Add` on the memory: `f` is the field `Layers` of the stack before
the call, the result is the memory and the field after it. -/
def FS.AddMem (spare : Nat) (h : Heap) (f : Slice) (Caller : Nat → String × Nat × Bool)
    (dir : Backend) : Heap × Slice :=
  let fl := callerLoop Caller 6 0 ("", 0)
  let fl := if fl.1 = "" then ("UNKNOWN", 0) else fl
  let l : Layer := { FS := dir, Name := fl.1 ++ ":" ++ toString fl.2 }
  let xs := h.view f
  let r := h.literal [l]
  r.1.append spare r.2 xs

/-! ## Example backends -/

/-- An entry of a listing, for the examples: `tag` tells the layers apart. -/
def exEntry (name : String) (isDir : Bool) (tag : Nat) : DirEntry :=
  { Name := name, IsDir := isDir, Typ := if isDir then 2147483648 else 0,
    Info := (some { Name := name, Size := tag, Mode := if isDir then 2147484141 else 420,
                    ModTime := { wall := 0, ext := 0 }, IsDir := isDir }, none) }

/-- A handle over the bytes `data`, whose state is the read offset. -/
def exFile (name : String) (isDir : Bool) (data : List Nat) : File :=
  { state := 0
    StatFn := fun _ =>
      .ok { Name := name, Size := data.length, Mode := if isDir then 2147484141 else 420,
            ModTime := { wall := 0, ext := 0 }, IsDir := isDir }
    ReadFn := fun s k =>
      if s < data.length then (((data.drop s).take k, none), s + ((data.drop s).take k).length)
      else (([], some .EOF), s)
    CloseFn := fun s => (none, s) }

/-- A backend over a table of files and a table of directory listings. -/
def exBackend (files : List (String × List Nat)) (dirs : List (String × List DirEntry)) :
    Backend :=
  { Open := fun name =>
      match files.lookup name with
      | some data => (some (exFile name false data), none)
      | none =>
        match dirs.lookup name with
        | some _ => (some (exFile name true []), none)
        | none => (none, some (.PathError "open" name .ErrNotExist))
    ReadDir := fun name =>
      match dirs.lookup name with
      | some es => (es, none)
      | none => ([], some (.PathError "open" name .ErrNotExist)) }

/-- A layer with only the directory `docs`, holding `a`. -/
def exTop : Layer :=
  { FS := exBackend [] [(".", [exEntry "docs" true 1]), ("docs", [exEntry "a" false 1])],
    Name := "top:1" }

/-- A layer with the file `x` and the directory `docs`, holding `a` and `b`. -/
def exMid : Layer :=
  { FS := exBackend [("x", [50])]
      [(".", [exEntry "x" false 2, exEntry "docs" true 2]),
       ("docs", [exEntry "a" false 2, exEntry "b" false 2])],
    Name := "mid:2" }

/-- A layer with the files `x` and `y`. -/
def exLow : Layer :=
  { FS := exBackend [("x", [49]), ("y", [51])]
      [(".", [exEntry "x" false 3, exEntry "y" false 3])],
    Name := "low:3" }

/-- The stack of the three example layers. -/
def exStack : FS := { Layers := [exTop, exMid, exLow] }

/-- The map order that visits the values in the reverse of the order of insertion. -/
def exOrder : MapOrder :=
  { range := List.reverse, perm := fun l => List.reverse_perm l }

/-- The directory `docs` of the example stack, as `FS.Open` returns it. -/
def exDocs : directory :=
  { entries := none, FS := exStack, path := "docs", file := some (exFile "docs" true []) }

/-- The layer `A` of the example of the specification: the file `x` holding `1`. -/
def exA : Backend :=
  exBackend [("x", [49])] [(".", [exEntry "x" false 1])]

/-- The layer `B` of the example of the specification: the files `x` holding `2` and
`y` holding `3`. -/
def exB : Backend :=
  exBackend [("x", [50]), ("y", [51])] [(".", [exEntry "x" false 2, exEntry "y" false 2])]

/-- The stack of the example of the specification: `A` added, then `B`. -/
def exAB (c1 c2 : Nat → String × Nat × Bool) : FS :=
  (New.Add c1 exA).Add c2 exB

/-- A memory that holds the layers of the example stack in array 0. -/
def exHeap : Heap :=
  { next := 1, slots := fun a i => if a = 0 then [exTop, exMid, exLow][i]? else none }

/-- The slice of the three layers of the example stack in `exHeap`. -/
def exSlice : Slice := { arr := 0, off := 0, len := 3, cap := 3 }

/-! ## Notions of the specification -/

/-- The listings, at `path`, of the layers whose listing succeeds, one after the
other in the order of the layers. -/
def listings (path : String) : List Layer → List DirEntry
  | [] => []
  | layer :: rest =>
    match layer.FS.ReadDir path with
    | (_, some _) => listings path rest
    | (entries, none) => entries ++ listings path rest

/-- First-occurrence-by-name deduplication: an entry is kept when no entry before
it has its name. -/
def firstByName : List DirEntry → List DirEntry
  | [] => []
  | e :: rest => e :: (firstByName rest).filter (fun x => decide (x.Name ≠ e.Name))

/-- The merged entries of a directory, as the specification words them. -/
def directory.mergedSpec (d : directory) : List DirEntry :=
  firstByName (listings d.path d.FS.Layers)

/-- The merged entries of a directory in the order of insertion into the map of
`ReadDir`. -/
def directory.merged (d : directory) : List DirEntry :=
  (mergeLayers d.path [] d.FS.Layers).map Prod.snd

/-- The merged entries not delivered yet: the buffer, and the whole merge (in the
order of insertion) while the buffer is `nil`. -/
def directory.pending (d : directory) : List DirEntry :=
  match d.entries with
  | none => d.merged
  | some l => l

/-- The number of merged entries not delivered yet. -/
def directory.remaining (d : directory) : Nat :=
  d.pending.length

/-- One step of the merge on the values of the map: an entry is added at the end
unless an entry of its name is there already. -/
def keepFirst (acc : List DirEntry) (e : DirEntry) : List DirEntry :=
  if e.Name ∈ acc.map DirEntry.Name then acc else acc ++ [e]

/-- The keys of the map `results` are the names of the entries bound to them. -/
def KeysOk (results : Results) : Prop :=
  ∀ p ∈ results, p.1 = p.2.Name

/-! ## The layer stack -/

section Stack

theorem openLoop_skip (fs : FS) (name : String) (rest : List Layer) :
    ∀ (pre : List Layer) (acc : Option Handle × Option Error),
      (∀ l ∈ pre, (l.FS.Open name).2 ≠ none) →
      ∃ acc2, openLoop fs name (pre ++ rest) acc = openLoop fs name rest acc2 ∧
        (pre = [] → acc2 = acc) ∧
        (∀ last, pre.getLast? = some last →
          acc2 = ((last.FS.Open name).1.map Handle.file, (last.FS.Open name).2)) := by
  intro pre
  induction pre with
  | nil => intro acc _; exact ⟨acc, rfl, fun _ => rfl, by simp⟩
  | cons l pre ih =>
    intro acc h
    have hl := h l (List.mem_cons_self _ _)
    have hpre : ∀ x ∈ pre, (x.FS.Open name).2 ≠ none :=
      fun x hx => h x (List.mem_cons_of_mem _ hx)
    rcases hopen : l.FS.Open name with ⟨f, e⟩
    rw [hopen] at hl
    cases e with
    | none => exact absurd rfl hl
    | some err =>
      obtain ⟨acc2, h1, h2, h3⟩ := ih (f.map Handle.file, some err) hpre
      refine ⟨acc2, ?_, by simp, ?_⟩
      · simp only [List.cons_append, openLoop, hopen]
        exact h1
      · intro last hlast
        cases pre with
        | nil =>
          simp at hlast
          subst hlast
          rw [h2 rfl, hopen]
        | cons p ps =>
          apply h3
          simpa [List.getLast?_cons_cons] using hlast

theorem open_of_first_success (fs : FS) (name : String) (pre post : List Layer) (W : Layer)
    (hname : name ≠ "/" ∧ name ≠ "." ∧ name ≠ "")
    (hlayers : fs.Layers = pre ++ W :: post)
    (hpre : ∀ l ∈ pre, (l.FS.Open name).2 ≠ none) :
    FS.Open fs name = openLoop fs name (W :: post) (none, none) := by
  obtain ⟨h1, h2, h3⟩ := hname
  obtain ⟨acc2, h, -, -⟩ := openLoop_skip fs name (W :: post) pre (none, none) hpre
  simp only [FS.Open, h1, h2, h3, if_false, or_self, hlayers, h]
  simp [openLoop]

theorem foldl_Add_backends (adds : List ((Nat → String × Nat × Bool) × Backend)) :
    ∀ fs : FS, ((adds.foldl (fun f a => f.Add a.1 a.2) fs).Layers.map Layer.FS) =
      (adds.map Prod.snd).reverse ++ fs.Layers.map Layer.FS := by
  induction adds with
  | nil => intro fs; simp
  | cons a adds ih =>
    intro fs
    have hadd : (fs.Add a.1 a.2).Layers.map Layer.FS = a.2 :: fs.Layers.map Layer.FS := rfl
    rw [List.foldl_cons, ih, hadd]
    simp

/-- C1: when the layers before `W` all fail to open `name` and `W` opens it with the
handle `h`, `FS.Open` succeeds and its result is `h` itself or a merged directory
backed by `h`, whatever the layers after `W` hold. -/
theorem C1_open_first_success (fs : FS) (name : String) (pre post : List Layer) (W : Layer)
    (h : File)
    (hname : name ≠ "/" ∧ name ≠ "." ∧ name ≠ "")
    (hlayers : fs.Layers = pre ++ W :: post)
    (hpre : ∀ l ∈ pre, (l.FS.Open name).2 ≠ none)
    (hW : W.FS.Open name = (some h, none)) :
    FS.Open fs name = .ok (some (.file h), none) ∨
    FS.Open fs name =
      .ok (some (.dir { entries := none, FS := fs, path := name, file := some h }), none) := by
  rw [open_of_first_success fs name pre post W hname hlayers hpre]
  simp only [openLoop, hW]
  cases h.Stat with
  | error e => exact Or.inl rfl
  | ok info =>
    cases hd : info.IsDir with
    | false => left; simp [hd]
    | true => right; simp [hd]

theorem C1_open_first_success_witness :
    ("x" ≠ "/" ∧ "x" ≠ "." ∧ "x" ≠ "") ∧ exStack.Layers = [exTop] ++ exMid :: [exLow] ∧
    exMid.FS.Open "x" = (some (exFile "x" false [50]), none) ∧
    (FS.Open exStack "x" = .ok (some (.file (exFile "x" false [50])), none) ∨
     FS.Open exStack "x" =
      .ok (some (.dir { entries := none, FS := exStack, path := "x",
                        file := some (exFile "x" false [50]) }), none)) :=
  ⟨by decide, rfl, rfl,
   C1_open_first_success exStack "x" [exTop] [exLow] exMid (exFile "x" false [50])
     (by decide) rfl (by intro l hl; rw [List.mem_singleton] at hl; subst hl; simp [exTop, exBackend, List.lookup]) rfl⟩

/-- C3: `Add` puts the new layer at index 0 and leaves the layers already there as
they were, behind it; after `New` and a sequence of `Add`s the backends are those
added, in the reverse of the order of insertion. -/
theorem C3_Add_prepends (fs : FS) (Caller : Nat → String × Nat × Bool) (d : Backend) :
    (∃ l : Layer, (fs.Add Caller d).Layers = l :: fs.Layers ∧ l.FS = d) ∧
    (fs.Add Caller d).Layers.map Layer.FS = d :: fs.Layers.map Layer.FS ∧
    ∀ adds : List ((Nat → String × Nat × Bool) × Backend),
      (adds.foldl (fun f a => f.Add a.1 a.2) New).Layers.map Layer.FS =
        (adds.map Prod.snd).reverse := by
  refine ⟨⟨_, rfl, rfl⟩, rfl, fun adds => ?_⟩
  simpa [New] using foldl_Add_backends adds New

/-- C4: when `W` is the first layer that opens `name`, with the handle `h`, `FS.Open`
returns a nil error and: `h` itself if `h.Stat` fails; a merged directory backed by
`h`, with path `name` and the layers of the stack, if `h.Stat` reports a directory;
`h` itself if `h.Stat` reports something that is not a directory. -/
theorem C4_open_stat_cases (fs : FS) (name : String) (pre post : List Layer) (W : Layer)
    (h : File)
    (hname : name ≠ "/" ∧ name ≠ "." ∧ name ≠ "")
    (hlayers : fs.Layers = pre ++ W :: post)
    (hpre : ∀ l ∈ pre, (l.FS.Open name).2 ≠ none)
    (hW : W.FS.Open name = (some h, none)) :
    (∀ e, h.Stat = .error e → FS.Open fs name = .ok (some (.file h), none)) ∧
    (∀ info, h.Stat = .ok info → info.IsDir = true →
      FS.Open fs name =
        .ok (some (.dir { entries := none, FS := fs, path := name, file := some h }), none)) ∧
    (∀ info, h.Stat = .ok info → info.IsDir = false →
      FS.Open fs name = .ok (some (.file h), none)) := by
  rw [open_of_first_success fs name pre post W hname hlayers hpre]
  simp only [openLoop, hW]
  refine ⟨fun e he => ?_, fun info hi hd => ?_, fun info hi hd => ?_⟩
  · rw [he]
  · rw [hi]; simp [hd]
  · rw [hi]; simp [hd]

theorem C4_open_stat_cases_witness :
    FS.Open exStack "docs" =
      .ok (some (.dir { entries := none, FS := exStack, path := "docs",
                        file := some (exFile "docs" true []) }), none) :=
  (C4_open_stat_cases exStack "docs" [] [exMid, exLow] exTop (exFile "docs" true [])
    (by decide) rfl (by simp) rfl).2.1 _ rfl rfl

/-- C5: on a stack with at least one layer, when every layer fails to open `name`,
`FS.Open` returns the error of the last layer, as it is (with whatever handle that
layer returned beside it), and that error is not nil. -/
theorem C5_open_all_fail (fs : FS) (name : String)
    (hname : name ≠ "/" ∧ name ≠ "." ∧ name ≠ "")
    (hne : fs.Layers ≠ [])
    (hall : ∀ l ∈ fs.Layers, (l.FS.Open name).2 ≠ none) :
    ∃ last, fs.Layers.getLast? = some last ∧
      FS.Open fs name =
        .ok ((last.FS.Open name).1.map Handle.file, (last.FS.Open name).2) ∧
      (last.FS.Open name).2 ≠ none := by
  obtain ⟨h1, h2, h3⟩ := hname
  have hlast : fs.Layers.getLast? = some (fs.Layers.getLast hne) :=
    List.getLast?_eq_getLast _ hne
  refine ⟨fs.Layers.getLast hne, hlast, ?_, hall _ (List.getLast_mem hne)⟩
  obtain ⟨acc2, h, -, hacc⟩ := openLoop_skip fs name [] fs.Layers (none, none) hall
  rw [List.append_nil] at h
  simp only [FS.Open, h1, h2, h3, if_false, or_self, h, openLoop, hacc _ hlast]

theorem C5_open_all_fail_witness :
    ("zz" ≠ "/" ∧ "zz" ≠ "." ∧ "zz" ≠ "") ∧ exStack.Layers ≠ [] ∧
    ∃ last, exStack.Layers.getLast? = some last ∧
      FS.Open exStack "zz" =
        .ok ((last.FS.Open "zz").1.map Handle.file, (last.FS.Open "zz").2) ∧
      (last.FS.Open "zz").2 ≠ none :=
  ⟨by decide, by simp [exStack],
   C5_open_all_fail exStack "zz" (by decide) (by simp [exStack])
     (by
       intro l hl
       simp only [exStack, List.mem_cons, List.mem_singleton, List.not_mem_nil, or_false] at hl
       rcases hl with rfl | rfl | rfl <;> simp [exTop, exMid, exLow, exBackend, List.lookup])⟩

/-- C6: on every stack, `FS.Open("/")` returns no handle and `fs.ErrPermission`; the
result does not depend on the layers. -/
theorem C6_open_root_denied (fs : FS) :
    FS.Open fs "/" = .ok (none, some .ErrPermission) := by
  simp [FS.Open]

/-- C7: on every stack, `FS.Open(".")` and `FS.Open("")` return a nil error and a
merged directory with no backing handle, the path asked for, the layers of the
stack and a buffer that is still nil; the result is built without opening a layer. -/
theorem C7_open_self_virtual (fs : FS) :
    FS.Open fs "." =
      .ok (some (.dir { entries := none, FS := fs, path := ".", file := none }), none) ∧
    FS.Open fs "" =
      .ok (some (.dir { entries := none, FS := fs, path := "", file := none }), none) := by
  constructor <;> simp [FS.Open]

end Stack

/-! ## The merge of `ReadDir` -/

section Merge

theorem lookup_isNone_iff (name : String) :
    ∀ results : Results, KeysOk results →
      ((results.lookup name).isNone = true ↔
        name ∉ (results.map Prod.snd).map DirEntry.Name) := by
  intro results
  induction results with
  | nil => intro _; simp [List.lookup]
  | cons p rs ih =>
    intro hk
    have hp : p.1 = p.2.Name := hk p (List.mem_cons_self _ _)
    have hrs : KeysOk rs := fun q hq => hk q (List.mem_cons_of_mem _ hq)
    obtain ⟨k, v⟩ := p
    simp only at hp
    subst hp
    by_cases h : name = v.Name
    · subst h
      simp [List.lookup]
    · have hb : (name == v.Name) = false := by simpa using h
      simp only [List.lookup, hb, List.map_cons, List.mem_cons, not_or]
      rw [ih hrs]
      exact ⟨fun h2 => ⟨h, h2⟩, fun h2 => h2.2⟩

theorem KeysOk_append (results : Results) (e : DirEntry) (hk : KeysOk results) :
    KeysOk (results ++ [(e.Name, e)]) := by
  intro p hp
  rcases List.mem_append.1 hp with h | h
  · exact hk p h
  · rw [List.mem_singleton] at h
    subst h
    rfl

theorem mergeEntries_vals (es : List DirEntry) :
    ∀ results : Results, KeysOk results →
      KeysOk (mergeEntries results es) ∧
      (mergeEntries results es).map Prod.snd = es.foldl keepFirst (results.map Prod.snd) := by
  induction es with
  | nil => intro results hk; exact ⟨hk, rfl⟩
  | cons e es ih =>
    intro results hk
    have hl := lookup_isNone_iff e.Name results hk
    by_cases h : e.Name ∈ (results.map Prod.snd).map DirEntry.Name
    · have h1 : ¬ ((results.lookup e.Name).isNone = true) := fun hc => (hl.1 hc) h
      simp only [mergeEntries, h1, if_false, List.foldl_cons, keepFirst, h, if_true]
      exact ih results hk
    · have h1 : (results.lookup e.Name).isNone = true := hl.2 h
      simp only [mergeEntries, h1, if_true, List.foldl_cons, keepFirst, h, if_false]
      have := ih (results ++ [(e.Name, e)]) (KeysOk_append results e hk)
      simpa using this

theorem mergeLayers_vals (path : String) (layers : List Layer) :
    ∀ results : Results, KeysOk results →
      (mergeLayers path results layers).map Prod.snd =
        (listings path layers).foldl keepFirst (results.map Prod.snd) := by
  induction layers with
  | nil => intro results _; rfl
  | cons l layers ih =>
    intro results hk
    rcases hr : l.FS.ReadDir path with ⟨es, err⟩
    cases err with
    | some e =>
      simp only [mergeLayers, listings, hr]
      exact ih results hk
    | none =>
      obtain ⟨hk2, hv⟩ := mergeEntries_vals es results hk
      simp only [mergeLayers, listings, hr, List.foldl_append]
      rw [ih _ hk2, hv]

theorem foldl_keepFirst (l : List DirEntry) :
    ∀ acc : List DirEntry,
      l.foldl keepFirst acc =
        acc ++ (firstByName l).filter (fun x => decide (x.Name ∉ acc.map DirEntry.Name)) := by
  induction l with
  | nil => intro acc; simp [firstByName]
  | cons e l ih =>
    intro acc
    by_cases h : e.Name ∈ acc.map DirEntry.Name
    · simp only [List.foldl_cons, keepFirst, h, if_true, firstByName, ih]
      congr 1
      rw [List.filter_cons]
      simp only [h, not_true_eq_false, decide_False, Bool.false_eq_true, if_false,
        List.filter_filter]
      apply List.filter_congr
      intro x _
      by_cases hx : x.Name ∈ acc.map DirEntry.Name
      · simp [hx]
      · have : x.Name ≠ e.Name := fun hc => hx (hc ▸ h)
        simp [hx, this]
    · simp only [List.foldl_cons, keepFirst, h, if_false, firstByName, ih]
      rw [List.filter_cons]
      simp only [h, not_false_eq_true, decide_True, if_true, List.filter_filter,
        List.append_assoc, List.singleton_append]
      congr 2
      apply List.filter_congr
      intro x _
      simp only [List.map_append, List.map_cons, List.map_nil, List.mem_append,
        List.mem_singleton, not_or]
      by_cases hx : x.Name ∈ acc.map DirEntry.Name <;> by_cases hxe : x.Name = e.Name <;>
        simp [hx, hxe]

theorem merged_eq_mergedSpec (d : directory) : d.merged = d.mergedSpec := by
  have h := mergeLayers_vals d.path d.FS.Layers [] (by intro p hp; cases hp)
  simp only [directory.merged, directory.mergedSpec, h, List.map_nil, foldl_keepFirst]
  simp

theorem mem_firstByName_iff (e : DirEntry) :
    ∀ l : List DirEntry,
      e ∈ firstByName l ↔ l.find? (fun x => x.Name == e.Name) = some e := by
  intro l
  induction l with
  | nil => simp [firstByName]
  | cons a l ih =>
    simp only [firstByName, List.mem_cons, List.mem_filter, List.find?_cons]
    by_cases h : a.Name = e.Name
    · have hb : (a.Name == e.Name) = true := by simpa using h
      simp only [hb]
      constructor
      · rintro (h1 | ⟨_, h2⟩)
        · rw [h1]
        · exact absurd h.symm (by simpa using h2)
      · intro h1
        left
        exact (Option.some.inj h1).symm
    · have hb : (a.Name == e.Name) = false := by simpa using h
      simp only [hb]
      rw [← ih]
      constructor
      · rintro (h1 | ⟨h1, _⟩)
        · exact absurd (h1 ▸ rfl) h
        · exact h1
      · intro h1
        right
        exact ⟨h1, by simpa using fun hc => h hc.symm⟩

theorem firstByName_sublist : ∀ l : List DirEntry, (firstByName l).Sublist l := by
  intro l
  induction l with
  | nil => exact List.Sublist.slnil
  | cons a l ih =>
    simp only [firstByName]
    exact ((List.filter_sublist _).trans ih).cons₂ a

theorem names_firstByName (name : String) :
    ∀ l : List DirEntry,
      name ∈ (firstByName l).map DirEntry.Name ↔ name ∈ l.map DirEntry.Name := by
  intro l
  induction l with
  | nil => simp [firstByName]
  | cons a l ih =>
    simp only [firstByName, List.map_cons, List.mem_cons]
    by_cases h : name = a.Name
    · simp [h]
    · simp only [h, false_or]
      rw [← ih]
      simp only [List.mem_map, List.mem_filter]
      constructor
      · rintro ⟨x, ⟨hx, _⟩, hn⟩
        exact ⟨x, hx, hn⟩
      · rintro ⟨x, hx, hn⟩
        exact ⟨x, ⟨hx, by simpa [hn] using h⟩, hn⟩

theorem nodup_names_firstByName :
    ∀ l : List DirEntry, ((firstByName l).map DirEntry.Name).Nodup := by
  intro l
  induction l with
  | nil => simp [firstByName]
  | cons a l ih =>
    simp only [firstByName, List.map_cons, List.nodup_cons]
    constructor
    · simp only [List.mem_map, List.mem_filter, not_exists, not_and]
      rintro x ⟨_, hx⟩ hn
      exact absurd hn (by simpa using hx)
    · exact ih.sublist ((List.filter_sublist _).map _)

theorem mem_listings_iff (path : String) (x : DirEntry) :
    ∀ layers : List Layer,
      x ∈ listings path layers ↔
        ∃ l ∈ layers, (l.FS.ReadDir path).2 = none ∧ x ∈ (l.FS.ReadDir path).1 := by
  intro layers
  induction layers with
  | nil => simp [listings]
  | cons l layers ih =>
    rcases hr : l.FS.ReadDir path with ⟨es, err⟩
    cases err with
    | some e => simp [listings, hr, ih]
    | none => simp [listings, hr, ih]

theorem listings_append (path : String) (post : List Layer) :
    ∀ pre : List Layer,
      listings path (pre ++ post) = listings path pre ++ listings path post := by
  intro pre
  induction pre with
  | nil => rfl
  | cons l pre ih =>
    rcases hr : l.FS.ReadDir path with ⟨es, err⟩
    cases err with
    | some e => simp [listings, hr, ih]
    | none => simp [listings, hr, ih]

theorem find?_append_of_not_mem (p : DirEntry → Bool) (b : List DirEntry) :
    ∀ a : List DirEntry, (∀ x ∈ a, p x = false) → (a ++ b).find? p = b.find? p := by
  intro a
  induction a with
  | nil => intro _; rfl
  | cons x a ih =>
    intro h
    simp only [List.cons_append, List.find?_cons, h x (List.mem_cons_self _ _)]
    exact ih (fun y hy => h y (List.mem_cons_of_mem _ hy))

theorem find?_append_of_some (p : DirEntry → Bool) (b : List DirEntry) (e : DirEntry) :
    ∀ a : List DirEntry, a.find? p = some e → (a ++ b).find? p = some e := by
  intro a
  induction a with
  | nil => intro h; simp at h
  | cons x a ih =>
    intro h
    simp only [List.cons_append, List.find?_cons] at h ⊢
    cases hp : p x with
    | true => simpa [hp] using h
    | false => rw [hp] at h; exact ih h

end Merge

/-! ## Paginated delivery -/

section Pages

theorem appendAll_eq (l : List DirEntry) :
    ∀ acc : Option (List DirEntry),
      appendAll acc l = if l = [] then acc else some (acc.getD [] ++ l) := by
  induction l with
  | nil => intro acc; rfl
  | cons e l ih =>
    intro acc
    simp only [appendAll, ih]
    by_cases h : l = []
    · simp [h]
    · simp [h]

theorem range_eq_nil_iff (o : MapOrder) (l : List DirEntry) : o.range l = [] ↔ l = [] := by
  constructor
  · intro h
    have := o.perm l
    rw [h] at this
    exact List.Perm.eq_nil this.symm
  · intro h
    subst h
    exact List.Perm.eq_nil (o.perm [])

/-- The three cases of the first part of `ReadDir`. -/
theorem fill_cases (o : MapOrder) (d : directory) :
    (d.entries = none ∧ d.merged = [] ∧ d.fill o = d) ∨
    (d.entries = none ∧ d.merged ≠ [] ∧
      d.fill o = { d with entries := some (o.range d.merged) }) ∨
    (∃ l, d.entries = some l ∧ d.fill o = d) := by
  obtain ⟨entries, fs, path, file⟩ := d
  cases entries with
  | some l => exact Or.inr (Or.inr ⟨l, rfl, rfl⟩)
  | none =>
    by_cases h : (directory.mk none fs path file).merged = []
    · left
      refine ⟨rfl, h, ?_⟩
      simp only [directory.merged] at h
      simp [directory.fill, h, appendAll_eq, range_eq_nil_iff]
    · right; left
      refine ⟨rfl, h, ?_⟩
      simp only [directory.merged] at h
      simp [directory.fill, directory.merged, h, appendAll_eq, range_eq_nil_iff]

/-- What one call of `ReadDir` does, in terms of the buffer `buf` after the merge. -/
theorem ReadDir_cases (o : MapOrder) (d : directory) (n : Int) :
    ∃ buf : List DirEntry,
      buf.Perm d.pending ∧ (∀ l, d.entries = some l → buf = l) ∧
      (d.entries = none → buf = o.range d.merged) ∧
      ((buf = [] ∧ d.ReadDir o n = (([], if 0 < n then some .EOF else none), d.fill o) ∧
          (d.fill o).pending = []) ∨
       (buf ≠ [] ∧
          d.ReadDir o n =
            ((buf.take (if 0 < n ∧ (buf.length : Int) > n then n.toNat else buf.length), none),
             { d.fill o with
               entries := some
                 (buf.drop (if 0 < n ∧ (buf.length : Int) > n then n.toNat else buf.length)) }))) := by
  rcases fill_cases o d with ⟨he, hm, hf⟩ | ⟨he, hm, hf⟩ | ⟨l, he, hf⟩
  · refine ⟨[], ?_, ?_, ?_, Or.inl ⟨rfl, ?_, ?_⟩⟩
    · simp [directory.pending, he, hm]
    · intro l hl; rw [he] at hl; cases hl
    · intro _; rw [hm]; exact ((range_eq_nil_iff o []).2 rfl).symm
    · simp only [directory.ReadDir, hf, he, Option.getD_none, List.length_nil]
      by_cases hn : 0 < n <;> simp [hn]
    · simp [hf, directory.pending, he, hm]
  · have hne : o.range d.merged ≠ [] := fun h => hm ((range_eq_nil_iff o _).1 h)
    have hlen : (o.range d.merged).length ≠ 0 := fun h => hne (List.length_eq_zero.1 h)
    refine ⟨o.range d.merged, ?_, ?_, fun _ => rfl, Or.inr ⟨hne, ?_⟩⟩
    · simpa [directory.pending, he] using o.perm d.merged
    · intro l hl; rw [he] at hl; cases hl
    · simp only [directory.ReadDir, hf, Option.getD_some, hlen, and_false, if_false, gt_iff_lt]
  · by_cases hl : l = []
    · subst hl
      refine ⟨[], ?_, ?_, ?_, Or.inl ⟨rfl, ?_, ?_⟩⟩
      · simp [directory.pending, he]
      · intro l hl; rw [he] at hl; exact (Option.some.inj hl)
      · intro h; rw [he] at h; cases h
      · simp only [directory.ReadDir, hf, he, Option.getD_some, List.length_nil]
        by_cases hn : 0 < n <;> simp [hn]
      · simp [hf, directory.pending, he]
    · have hlen : l.length ≠ 0 := fun h => hl (List.length_eq_zero.1 h)
      refine ⟨l, ?_, ?_, ?_, Or.inr ⟨hl, ?_⟩⟩
      · simp [directory.pending, he]
      · intro l2 hl2; rw [he] at hl2; exact (Option.some.inj hl2)
      · intro h; rw [he] at h; cases h
      · simp only [directory.ReadDir, hf, he, Option.getD_some, hlen, and_false, if_false,
          gt_iff_lt]

/-- The error, the number of entries and the entries left after one call of `ReadDir`. -/
theorem ReadDir_summary (o : MapOrder) (d : directory) (n : Int) :
    (d.ReadDir o n).1.2 = (if 0 < n ∧ d.remaining = 0 then some .EOF else none) ∧
    ((d.ReadDir o n).1.1.length : Int) = (if 0 < n then min n d.remaining else d.remaining) ∧
    ((d.ReadDir o n).1.1 ++ (d.ReadDir o n).2.pending).Perm d.pending ∧
    (d.ReadDir o n).2.FS = d.FS ∧ (d.ReadDir o n).2.path = d.path ∧
    (d.ReadDir o n).2.file = d.file := by
  have hfs : (d.fill o).FS = d.FS ∧ (d.fill o).path = d.path ∧ (d.fill o).file = d.file := by
    rcases fill_cases o d with ⟨_, _, hf⟩ | ⟨_, _, hf⟩ | ⟨l, _, hf⟩ <;> rw [hf] <;> exact ⟨rfl, rfl, rfl⟩
  obtain ⟨buf, hperm, -, -, h⟩ := ReadDir_cases o d n
  have hrem : d.remaining = buf.length := by
    simp only [directory.remaining]; exact hperm.length_eq.symm
  rcases h with ⟨hb, hr, hp⟩ | ⟨hb, hr⟩
  · subst hb
    have hp0 : d.pending = [] := List.Perm.eq_nil hperm.symm
    rw [hr, hrem]
    refine ⟨by simp, ?_, ?_, hfs⟩
    · by_cases hn : 0 < n
      · simp only [hn, if_true, List.length_nil]; omega
      · simp [hn]
    · simp [hp, hp0]
  · have hlen : buf.length ≠ 0 := fun h => hb (List.length_eq_zero.1 h)
    rw [hr, hrem]
    refine ⟨by simp [hlen], ?_, ?_, hfs⟩
    · simp only [List.length_take]
      by_cases hn : 0 < n
      · by_cases hgt : (buf.length : Int) > n
        · simp only [hn, hgt, and_self, if_true]; omega
        · simp only [hn, hgt, and_false, if_false]; omega
      · simp [hn]
    · simp only [directory.pending, List.take_append_drop]
      exact hperm

theorem remaining_after_all (o : MapOrder) (d : directory) (n : Int) (hn : n ≤ 0) :
    (d.ReadDir o n).2.remaining = 0 := by
  obtain ⟨-, hlen, hperm, -⟩ := ReadDir_summary o d n
  have h0 : ¬ 0 < n := by omega
  simp only [h0, if_false] at hlen
  have := hperm.length_eq
  simp only [List.length_append] at this
  simp only [directory.remaining] at hlen ⊢
  omega

theorem ReadDir_of_remaining_zero (o : MapOrder) (d : directory) (m : Int)
    (h : d.remaining = 0) :
    (d.ReadDir o m).1.1 = [] ∧ (0 < m → (d.ReadDir o m).1.2 = some .EOF) ∧
    (m ≤ 0 → (d.ReadDir o m).1.2 = none) := by
  obtain ⟨herr, hlen, -, -⟩ := ReadDir_summary o d m
  rw [h] at herr hlen
  refine ⟨?_, fun hm => by simp [herr, hm], fun hm => ?_⟩
  · apply List.length_eq_zero.1
    by_cases hm : 0 < m
    · simp only [hm, if_true] at hlen; omega
    · simp only [hm, if_false] at hlen; omega
  · have h0 : ¬ 0 < m := by omega
    simp [herr, h0]

theorem open_dir_of_loop (fs : FS) (name : String) (d : directory) :
    ∀ (layers : List Layer) (acc : Option Handle × Option Error),
      openLoop fs name layers acc = .ok (some (.dir d), none) →
      acc = (some (.dir d), none) ∨ (d.entries = none ∧ d.FS = fs ∧ d.path = name) := by
  intro layers
  induction layers with
  | nil =>
    intro acc h
    left
    simpa [openLoop] using h
  | cons l layers ih =>
    intro acc h
    right
    rcases hopen : l.FS.Open name with ⟨f, e⟩
    cases e with
    | some err =>
      simp only [openLoop, hopen] at h
      rcases ih _ h with h1 | h1
      · simp at h1
      · exact h1
    | none =>
      cases f with
      | none => simp [openLoop, hopen] at h
      | some hd =>
        simp only [openLoop, hopen] at h
        cases hs : hd.Stat with
        | error e => simp [hs] at h
        | ok info =>
          rw [hs] at h
          cases hi : info.IsDir with
          | false => simp [hi] at h
          | true =>
            simp only [hi, if_true, Except.ok.injEq, Prod.mk.injEq, Option.some.injEq,
              Handle.dir.injEq, and_true] at h
            subst h
            exact ⟨rfl, rfl, rfl⟩

/-- A directory returned by `FS.Open` has a nil buffer, the stack it was opened on
and the path asked for. -/
theorem open_dir_fresh (fs : FS) (name : String) (d : directory)
    (h : FS.Open fs name = .ok (some (.dir d), none)) :
    d.entries = none ∧ d.FS = fs ∧ d.path = name := by
  unfold FS.Open at h
  by_cases h1 : name = "/"
  · simp [h1] at h
  · by_cases h2 : name = "." ∨ name = ""
    · simp only [h1, h2, if_false, if_true, Except.ok.injEq, Prod.mk.injEq,
        Option.some.injEq, Handle.dir.injEq, and_true] at h
      subst h
      exact ⟨rfl, rfl, rfl⟩
    · simp only [h1, h2, if_false] at h
      rcases open_dir_of_loop fs name d _ _ h with h3 | h3
      · simp at h3
      · exact h3

/-- The loop that reads pages of `n > 0` entries ends, given fuel for one call more
than there are entries left; its pages are the entries left, rearranged. -/
theorem readPages_total (os : Nat → MapOrder) (n : Int) (hn : 0 < n) :
    ∀ (k i : Nat) (d : directory), d.remaining ≤ k →
      ∃ pages d2, readPages os n (k + 1) i d = some (pages, d2) ∧
        pages.flatten.Perm d.pending ∧ d2.remaining = 0 := by
  intro k
  induction k with
  | zero =>
    intro i d hk
    have h0 : d.remaining = 0 := by omega
    obtain ⟨herr, -, hperm, -⟩ := ReadDir_summary (os i) d n
    have hp : d.pending = [] := List.length_eq_zero.1 h0
    simp only [hn, h0, and_self, if_true] at herr
    refine ⟨[], (d.ReadDir (os i) n).2, by simp [readPages, herr], by simp [hp], ?_⟩
    rw [hp] at hperm
    have := List.Perm.eq_nil hperm
    simp only [List.append_eq_nil] at this
    simp [directory.remaining, this.2]
  | succ k ih =>
    intro i d hk
    obtain ⟨herr, hlen, hperm, -⟩ := ReadDir_summary (os i) d n
    by_cases h0 : d.remaining = 0
    · have hp : d.pending = [] := List.length_eq_zero.1 h0
      simp only [hn, h0, and_self, if_true] at herr
      refine ⟨[], (d.ReadDir (os i) n).2, by simp [readPages, herr], by simp [hp], ?_⟩
      rw [hp] at hperm
      have := List.Perm.eq_nil hperm
      simp only [List.append_eq_nil] at this
      simp [directory.remaining, this.2]
    · simp only [hn, h0, and_false, if_false, if_true] at herr hlen
      have hl := hperm.length_eq
      simp only [List.length_append] at hl
      have hk2 : (d.ReadDir (os i) n).2.remaining ≤ k := by
        simp only [directory.remaining] at hk h0 hlen ⊢
        omega
      obtain ⟨pages, d2, hrec, hpp, hd2⟩ := ih (i + 1) _ hk2
      refine ⟨(d.ReadDir (os i) n).1.1 :: pages, d2, ?_, ?_, hd2⟩
      · rw [readPages]
        simp only [herr, hrec, Option.map_some']
      · simp only [List.flatten_cons]
        exact (List.Perm.append_left _ hpp).trans hperm

/-- C2: on a directory whose buffer is still nil, `ReadDir(n)` with `n <= 0` returns a
nil error and, up to order, the first-occurrence-by-name deduplication of the
listings, taken in the order of the layers, of the layers whose listing succeeds:
the names are distinct, they are the names listed by some layer whose listing
succeeds, and the entry of a name is the first one of that name in the first layer
that lists the name. -/
theorem C2_readdir_merge (o : MapOrder) (d : directory) (n : Int)
    (hfresh : d.entries = none) (hn : n ≤ 0) :
    (d.ReadDir o n).1.2 = none ∧
    (d.ReadDir o n).1.1.Perm d.mergedSpec ∧
    ((d.ReadDir o n).1.1.map DirEntry.Name).Nodup ∧
    (∀ name, name ∈ (d.ReadDir o n).1.1.map DirEntry.Name ↔
      ∃ l ∈ d.FS.Layers, (l.FS.ReadDir d.path).2 = none ∧
        ∃ e ∈ (l.FS.ReadDir d.path).1, e.Name = name) ∧
    (∀ (pre post : List Layer) (L : Layer) (e : DirEntry),
      d.FS.Layers = pre ++ L :: post →
      (∀ l ∈ pre, (l.FS.ReadDir d.path).2 = none →
        ∀ x ∈ (l.FS.ReadDir d.path).1, x.Name ≠ e.Name) →
      (L.FS.ReadDir d.path).2 = none →
      (L.FS.ReadDir d.path).1.find? (fun x => x.Name == e.Name) = some e →
      e ∈ (d.ReadDir o n).1.1 ∧ ∀ x ∈ (d.ReadDir o n).1.1, x.Name = e.Name → x = e) := by
  obtain ⟨herr, -, hperm, -⟩ := ReadDir_summary o d n
  have h0 : ¬ 0 < n := by omega
  have hrem := remaining_after_all o d n hn
  have hp2 : (d.ReadDir o n).2.pending = [] := List.length_eq_zero.1 hrem
  rw [hp2, List.append_nil] at hperm
  have hpend : d.pending = d.mergedSpec := by
    simp only [directory.pending, hfresh]
    exact merged_eq_mergedSpec d
  rw [hpend] at hperm
  have hmem : ∀ e, e ∈ (d.ReadDir o n).1.1 ↔
      (listings d.path d.FS.Layers).find? (fun x => x.Name == e.Name) = some e := by
    intro e
    rw [hperm.mem_iff]
    exact mem_firstByName_iff e _
  refine ⟨by simp [herr, h0], hperm, ?_, ?_, ?_⟩
  · exact ((hperm.map DirEntry.Name).nodup_iff).2 (nodup_names_firstByName _)
  · intro name
    rw [(hperm.map DirEntry.Name).mem_iff]
    simp only [directory.mergedSpec]
    rw [names_firstByName, List.mem_map]
    constructor
    · rintro ⟨x, hx, hname⟩
      obtain ⟨l, hl, h1, h2⟩ := (mem_listings_iff d.path x _).1 hx
      exact ⟨l, hl, h1, x, h2, hname⟩
    · rintro ⟨l, hl, h1, x, h2, hname⟩
      exact ⟨x, (mem_listings_iff d.path x _).2 ⟨l, hl, h1, h2⟩, hname⟩
  · intro pre post L e hlayers hpre hL hfind
    have hfirst : (listings d.path d.FS.Layers).find? (fun x => x.Name == e.Name) = some e := by
      rw [hlayers, listings_append]
      rw [find?_append_of_not_mem]
      · rcases hr : L.FS.ReadDir d.path with ⟨es, err⟩
        rw [hr] at hL hfind
        simp only at hL hfind
        subst hL
        simp only [listings, hr]
        exact find?_append_of_some _ _ _ _ hfind
      · intro x hx
        obtain ⟨l, hl, h1, h2⟩ := (mem_listings_iff d.path x _).1 hx
        simpa using hpre l hl h1 x h2
    refine ⟨(hmem e).2 hfirst, fun x hx hname => ?_⟩
    have hx2 := (hmem x).1 hx
    rw [hname, hfirst] at hx2
    exact (Option.some.inj hx2).symm

theorem C2_readdir_merge_witness :
    exDocs.entries = none ∧ (0 : Int) ≤ 0 ∧
    (exDocs.ReadDir exOrder 0).1.2 = none ∧
    (exDocs.ReadDir exOrder 0).1.1.Perm exDocs.mergedSpec ∧
    ((exDocs.ReadDir exOrder 0).1.1.map DirEntry.Name).Nodup :=
  ⟨rfl, by decide,
   (C2_readdir_merge exOrder exDocs 0 rfl (by decide)).1,
   (C2_readdir_merge exOrder exDocs 0 rfl (by decide)).2.1,
   (C2_readdir_merge exOrder exDocs 0 rfl (by decide)).2.2.1⟩

/-- C8: for `n > 0`, `ReadDir(n)` returns at most `n` entries; the result is empty
exactly when no merged entry is left, and exactly then the error is `io.EOF`; a
result that is not empty comes with a nil error and has `min(n, remaining)`
entries, which are no longer left afterwards. -/
theorem C8_readdir_page (o : MapOrder) (d : directory) (n : Int) (hn : 0 < n) :
    ((d.ReadDir o n).1.1.length : Int) ≤ n ∧
    ((d.ReadDir o n).1.1 = [] ↔ d.remaining = 0) ∧
    ((d.ReadDir o n).1.2 = some .EOF ↔ d.remaining = 0) ∧
    ((d.ReadDir o n).1.1 ≠ [] →
      (d.ReadDir o n).1.2 = none ∧
      ((d.ReadDir o n).1.1.length : Int) = min n d.remaining) ∧
    (d.ReadDir o n).1.1.length + (d.ReadDir o n).2.remaining = d.remaining := by
  obtain ⟨herr, hlen, hperm, -⟩ := ReadDir_summary o d n
  simp only [hn, if_true, true_and] at herr hlen
  have hl := hperm.length_eq
  simp only [List.length_append] at hl
  have hnil : (d.ReadDir o n).1.1 = [] ↔ d.remaining = 0 := by
    rw [← List.length_eq_zero]
    omega
  refine ⟨by omega, hnil, ?_, fun hne => ⟨?_, hlen⟩, hl⟩
  · rw [herr]
    by_cases h0 : d.remaining = 0 <;> simp [h0]
  · have h0 : d.remaining ≠ 0 := fun h => hne (hnil.2 h)
    simp [herr, h0]

theorem C8_readdir_page_witness :
    (0 : Int) < 1 ∧
    ((exDocs.ReadDir exOrder 1).1.1.length : Int) ≤ 1 ∧
    ((exDocs.ReadDir exOrder 1).1.1 = [] ↔ exDocs.remaining = 0) ∧
    ((exDocs.ReadDir exOrder 1).1.2 = some .EOF ↔ exDocs.remaining = 0) ∧
    ((exDocs.ReadDir exOrder 1).1.1 ≠ [] →
      (exDocs.ReadDir exOrder 1).1.2 = none ∧
      ((exDocs.ReadDir exOrder 1).1.1.length : Int) = min 1 exDocs.remaining) ∧
    (exDocs.ReadDir exOrder 1).1.1.length + (exDocs.ReadDir exOrder 1).2.remaining =
      exDocs.remaining :=
  ⟨by decide, C8_readdir_page exOrder exDocs 1 (by decide)⟩

/-- C9: for `n <= 0`, `ReadDir(n)` returns a nil error (so never `io.EOF`) and all the
entries not delivered yet: the buffer as it is when there is one, the whole merge
in some order otherwise, and nothing when none is left. The next `ReadDir(m)` on the
handle returns no entry, with `io.EOF` if `m > 0` and a nil error if `m <= 0`. -/
theorem C9_readdir_all (o : MapOrder) (d : directory) (n : Int) (hn : n ≤ 0) :
    (d.ReadDir o n).1.2 = none ∧
    (d.ReadDir o n).1.1.Perm d.pending ∧
    (∀ l, d.entries = some l → (d.ReadDir o n).1.1 = l) ∧
    (d.remaining = 0 → (d.ReadDir o n).1.1 = []) ∧
    ∀ (o2 : MapOrder) (m : Int),
      ((d.ReadDir o n).2.ReadDir o2 m).1.1 = [] ∧
      (0 < m → ((d.ReadDir o n).2.ReadDir o2 m).1.2 = some .EOF) ∧
      (m ≤ 0 → ((d.ReadDir o n).2.ReadDir o2 m).1.2 = none) := by
  obtain ⟨herr, -, hperm, -⟩ := ReadDir_summary o d n
  have h0 : ¬ 0 < n := by omega
  have hrem := remaining_after_all o d n hn
  have hp2 : (d.ReadDir o n).2.pending = [] := List.length_eq_zero.1 hrem
  rw [hp2, List.append_nil] at hperm
  refine ⟨by simp [herr, h0], hperm, ?_, ?_, fun o2 m => ?_⟩
  · intro l hl
    obtain ⟨buf, -, hbuf, -, h⟩ := ReadDir_cases o d n
    have hb := hbuf l hl
    subst hb
    rcases h with ⟨hb, hr, -⟩ | ⟨-, hr⟩
    · rw [hr, hb]
    · rw [hr]
      simp [h0]
  · intro hz
    have hp : d.pending = [] := List.length_eq_zero.1 hz
    rw [hp] at hperm
    exact List.Perm.eq_nil hperm
  · exact ReadDir_of_remaining_zero o2 _ m hrem

theorem C9_readdir_all_witness :
    (-1 : Int) ≤ 0 ∧
    (exDocs.ReadDir exOrder (-1)).1.2 = none ∧
    (exDocs.ReadDir exOrder (-1)).1.1.Perm exDocs.pending ∧
    ((exDocs.ReadDir exOrder (-1)).2.ReadDir exOrder 1).1 = ([], some .EOF) ∧
    ((exDocs.ReadDir exOrder (-1)).2.ReadDir exOrder 0).1 = ([], none) :=
  ⟨by decide,
   (C9_readdir_all exOrder exDocs (-1) (by decide)).1,
   (C9_readdir_all exOrder exDocs (-1) (by decide)).2.1,
   Prod.ext ((C9_readdir_all exOrder exDocs (-1) (by decide)).2.2.2.2 exOrder 1).1
     (((C9_readdir_all exOrder exDocs (-1) (by decide)).2.2.2.2 exOrder 1).2.1 (by decide)),
   Prod.ext ((C9_readdir_all exOrder exDocs (-1) (by decide)).2.2.2.2 exOrder 0).1
     (((C9_readdir_all exOrder exDocs (-1) (by decide)).2.2.2.2 exOrder 0).2.2 (by decide))⟩

/-- C10: on a directory that `FS.Open` has just returned, the loop that calls
`ReadDir(n)`, `n > 0`, until `io.EOF` ends, and the entries of its pages are,
up to order, those of one call `ReadDir(m)`, `m <= 0`, on a directory just
returned by the same `Open`: the same names, each of them once. -/
theorem C10_pages_same_names (fs : FS) (name : String) (d : directory) (os : Nat → MapOrder)
    (o : MapOrder) (n m : Int)
    (hopen : FS.Open fs name = .ok (some (.dir d), none)) (hn : 0 < n) (hm : m ≤ 0) :
    ∃ fuel pages d2, readPages os n fuel 0 d = some (pages, d2) ∧
      pages.flatten.Perm (d.ReadDir o m).1.1 ∧
      (pages.flatten.map DirEntry.Name).Perm ((d.ReadDir o m).1.1.map DirEntry.Name) ∧
      (pages.flatten.map DirEntry.Name).Nodup ∧
      ((d.ReadDir o m).1.1.map DirEntry.Name).Nodup := by
  obtain ⟨hfresh, -, -⟩ := open_dir_fresh fs name d hopen
  obtain ⟨pages, d2, hrun, hperm, -⟩ := readPages_total os n hn d.remaining 0 d (le_refl _)
  obtain ⟨-, -, hall, -⟩ := ReadDir_summary o d m
  have hrem := remaining_after_all o d m hm
  have hp2 : (d.ReadDir o m).2.pending = [] := List.length_eq_zero.1 hrem
  rw [hp2, List.append_nil] at hall
  have hpend : d.pending = d.mergedSpec := by
    simp only [directory.pending, hfresh]
    exact merged_eq_mergedSpec d
  have hboth : pages.flatten.Perm (d.ReadDir o m).1.1 := hperm.trans hall.symm
  have hnd : ((d.ReadDir o m).1.1.map DirEntry.Name).Nodup := by
    rw [hpend] at hall
    exact ((hall.map DirEntry.Name).nodup_iff).2 (nodup_names_firstByName _)
  exact ⟨d.remaining + 1, pages, d2, hrun, hboth, hboth.map _,
    (((hboth.map DirEntry.Name).nodup_iff).2 hnd), hnd⟩

theorem C10_pages_same_names_witness :
    FS.Open exStack "docs" = .ok (some (.dir exDocs), none) ∧ (0 : Int) < 1 ∧ (0 : Int) ≤ 0 ∧
    ∃ fuel pages d2, readPages (fun _ => exOrder) 1 fuel 0 exDocs = some (pages, d2) ∧
      pages.flatten.Perm (exDocs.ReadDir exOrder 0).1.1 ∧
      (pages.flatten.map DirEntry.Name).Perm
        ((exDocs.ReadDir exOrder 0).1.1.map DirEntry.Name) ∧
      (pages.flatten.map DirEntry.Name).Nodup ∧
      ((exDocs.ReadDir exOrder 0).1.1.map DirEntry.Name).Nodup :=
  ⟨rfl, by decide, by decide,
   C10_pages_same_names exStack "docs" exDocs (fun _ => exOrder) exOrder 1 0 rfl
     (by decide) (by decide)⟩

end Pages

/-! ## Loops of calls -/

section Calls

theorem ReadDir_all_perm (o : MapOrder) (d : directory) (n : Int) (hn : n ≤ 0) :
    (d.ReadDir o n).1.2 = none ∧ (d.ReadDir o n).1.1.Perm d.pending := by
  obtain ⟨herr, -, hperm, -⟩ := ReadDir_summary o d n
  have h0 : ¬ 0 < n := by omega
  have hrem := remaining_after_all o d n hn
  have hp2 : (d.ReadDir o n).2.pending = [] := List.length_eq_zero.1 hrem
  rw [hp2, List.append_nil] at hperm
  exact ⟨by simp [herr, h0], hperm⟩

theorem remaining_zero_step (o : MapOrder) (d : directory) (n : Int) (h : d.remaining = 0) :
    (d.ReadDir o n).2.remaining = 0 := by
  obtain ⟨-, -, hperm, -⟩ := ReadDir_summary o d n
  have hl := hperm.length_eq
  simp only [List.length_append] at hl
  simp only [directory.remaining] at h ⊢
  omega

theorem afterCalls_remaining_zero (calls : List (MapOrder × Int)) :
    ∀ d : directory, d.remaining = 0 → (d.afterCalls calls).remaining = 0 := by
  induction calls with
  | nil => intro d h; exact h
  | cons c calls ih =>
    intro d h
    simp only [directory.afterCalls, List.foldl_cons]
    exact ih _ (remaining_zero_step c.1 d c.2 h)

theorem afterCalls_frame (calls : List (MapOrder × Int)) :
    ∀ d : directory, (d.afterCalls calls).FS = d.FS ∧ (d.afterCalls calls).path = d.path ∧
      (d.afterCalls calls).file = d.file := by
  induction calls with
  | nil => intro d; exact ⟨rfl, rfl, rfl⟩
  | cons c calls ih =>
    intro d
    simp only [directory.afterCalls, List.foldl_cons]
    obtain ⟨-, -, -, h1, h2, h3⟩ := ReadDir_summary c.1 d c.2
    obtain ⟨h4, h5, h6⟩ := ih (d.ReadDir c.1 c.2).2
    simp only [directory.afterCalls] at h4 h5 h6
    exact ⟨h4.trans h1, h5.trans h2, h6.trans h3⟩

theorem ceil_step (r N : Nat) (hN : 0 < N) (hr : 0 < r) :
    (r + N - 1) / N = (r - min N r + N - 1) / N + 1 := by
  have h1 : r + N - 1 = (r - 1) + N := by omega
  rw [h1, Nat.add_div_right _ hN]
  congr 1
  by_cases h : r ≤ N
  · have h2 : r - min N r + N - 1 = N - 1 := by omega
    rw [h2, Nat.div_eq_of_lt (by omega), Nat.div_eq_of_lt (by omega)]
  · have h2 : r - min N r + N - 1 = r - 1 := by omega
    rw [h2]

/-- The pages of the loop that reads `n > 0` entries at a time, given more fuel
than there are entries left. -/
theorem readPages_shape (os : Nat → MapOrder) (n : Int) (hn : 0 < n) :
    ∀ (k i : Nat) (d : directory) (fuel : Nat), d.remaining ≤ k → k < fuel →
      ∃ pages d2, readPages os n fuel i d = some (pages, d2) ∧ d2.remaining = 0 ∧
        pages.length = (d.remaining + n.toNat - 1) / n.toNat ∧
        (∀ p ∈ pages, p ≠ [] ∧ (p.length : Int) ≤ n) ∧
        (∀ p ∈ pages.dropLast, (p.length : Int) = n) := by
  have hN : 0 < n.toNat := by omega
  have done : ∀ (i : Nat) (d : directory) (fuel : Nat), d.remaining = 0 →
      ∃ pages d2, readPages os n (fuel + 1) i d = some (pages, d2) ∧ d2.remaining = 0 ∧
        pages.length = (d.remaining + n.toNat - 1) / n.toNat ∧
        (∀ p ∈ pages, p ≠ [] ∧ (p.length : Int) ≤ n) ∧
        (∀ p ∈ pages.dropLast, (p.length : Int) = n) := by
    intro i d fuel h0
    obtain ⟨herr, -, -, -⟩ := ReadDir_summary (os i) d n
    simp only [hn, h0, and_self, if_true] at herr
    refine ⟨[], (d.ReadDir (os i) n).2, by simp [readPages, herr],
      remaining_zero_step _ _ _ h0, ?_, by simp, by simp⟩
    rw [h0, List.length_nil, Nat.zero_add, Nat.div_eq_of_lt (by omega)]
  intro k
  induction k with
  | zero =>
    intro i d fuel hk hf
    obtain ⟨f, rfl⟩ : ∃ f, fuel = f + 1 := ⟨fuel - 1, by omega⟩
    exact done i d f (by omega)
  | succ k ih =>
    intro i d fuel hk hf
    obtain ⟨f, rfl⟩ : ∃ f, fuel = f + 1 := ⟨fuel - 1, by omega⟩
    by_cases h0 : d.remaining = 0
    · exact done i d f h0
    · obtain ⟨herr, hlen, hperm, -⟩ := ReadDir_summary (os i) d n
      simp only [hn, h0, and_false, if_false, if_true] at herr hlen
      have hl := hperm.length_eq
      simp only [List.length_append] at hl
      have hrem2 : (d.ReadDir (os i) n).2.remaining = d.remaining - min n.toNat d.remaining := by
        simp only [directory.remaining] at hlen h0 ⊢
        omega
      obtain ⟨pages, d2, hrec, hd2, hcount, hall, hfull⟩ :=
        ih (i + 1) (d.ReadDir (os i) n).2 f (by rw [hrem2]; omega) (by omega)
      refine ⟨(d.ReadDir (os i) n).1.1 :: pages, d2, ?_, hd2, ?_, ?_, ?_⟩
      · rw [readPages]
        simp only [herr, hrec, Option.map_some']
      · rw [List.length_cons, hcount, hrem2]
        exact (ceil_step d.remaining n.toNat hN (by omega)).symm
      · intro p hp
        rcases List.mem_cons.1 hp with rfl | hp
        · constructor
          · intro hnil
            rw [hnil] at hlen
            simp only [List.length_nil] at hlen
            omega
          · omega
        · exact hall p hp
      · intro p hp
        cases pages with
        | nil => simp at hp
        | cons q qs =>
          rw [List.dropLast_cons₂] at hp
          rcases List.mem_cons.1 hp with rfl | hp
          · have hpos : 0 < (d.ReadDir (os i) n).2.remaining := by
              by_contra hz
              have hz0 : (d.ReadDir (os i) n).2.remaining = 0 := by omega
              rw [hz0, Nat.zero_add, Nat.div_eq_of_lt (by omega)] at hcount
              simp at hcount
            rw [hrem2] at hpos
            omega
          · exact hfull p hp

theorem readPages_mono (os : Nat → MapOrder) (n : Int) :
    ∀ (fuel i : Nat) (d : directory) (r : List (List DirEntry) × directory),
      readPages os n fuel i d = some r →
      ∀ fuel2, fuel ≤ fuel2 → readPages os n fuel2 i d = some r := by
  intro fuel
  induction fuel with
  | zero => intro i d r h; simp [readPages] at h
  | succ f ih =>
    intro i d r h fuel2 hf
    obtain ⟨f2, rfl⟩ : ∃ f2, fuel2 = f2 + 1 := ⟨fuel2 - 1, by omega⟩
    rw [readPages] at h ⊢
    cases herr : (d.ReadDir (os i) n).1.2 with
    | some e =>
      rw [herr] at h
      cases e <;> exact h
    | none =>
      rw [herr] at h
      simp only [Option.map_eq_some'] at h ⊢
      obtain ⟨p, hp, hr⟩ := h
      exact ⟨p, ih (i + 1) _ p hp f2 (by omega), hr⟩

/-- C11: on a directory that `FS.Open` has just returned, with `k` merged entries, the
loop that calls `ReadDir(n)`, `n > 0`, until `io.EOF` ends for every fuel above `k`:
`ceil(k / n)` calls return a page that is not empty with a nil error, each of `n`
entries except possibly the last, the next call returns `io.EOF`, and so does every
later call of `ReadDir(n)`. -/
theorem C11_pages_count (fs : FS) (name : String) (d : directory) (os : Nat → MapOrder)
    (n : Int) (hopen : FS.Open fs name = .ok (some (.dir d), none)) (hn : 0 < n) :
    ∃ pages d2,
      (∀ fuel, d.mergedSpec.length < fuel → readPages os n fuel 0 d = some (pages, d2)) ∧
      pages.length = (d.mergedSpec.length + n.toNat - 1) / n.toNat ∧
      (∀ p ∈ pages, p ≠ [] ∧ (p.length : Int) ≤ n) ∧
      (∀ p ∈ pages.dropLast, (p.length : Int) = n) ∧
      ∀ (later : List MapOrder) (o : MapOrder),
        ((d2.afterCalls (later.map (fun x => (x, n)))).ReadDir o n).1 = ([], some .EOF) := by
  obtain ⟨hfresh, -, -⟩ := open_dir_fresh fs name d hopen
  have hk : d.remaining = d.mergedSpec.length := by
    simp only [directory.remaining, directory.pending, hfresh]
    rw [merged_eq_mergedSpec]
  obtain ⟨pages, d2, hrun, hd2, hcount, hall, hfull⟩ :=
    readPages_shape os n hn d.remaining 0 d (d.remaining + 1) (le_refl _) (by omega)
  refine ⟨pages, d2, ?_, by rw [← hk]; exact hcount, hall, hfull, ?_⟩
  · intro fuel hf
    exact readPages_mono os n _ 0 d _ hrun fuel (by omega)
  · intro later o
    have hz := afterCalls_remaining_zero (later.map (fun x => (x, n))) d2 hd2
    obtain ⟨h1, h2, -⟩ := ReadDir_of_remaining_zero o _ n hz
    exact Prod.ext h1 (h2 hn)

theorem C11_pages_count_witness :
    FS.Open exStack "docs" = .ok (some (.dir exDocs), none) ∧ (0 : Int) < 1 ∧
    ∃ pages d2,
      (∀ fuel, exDocs.mergedSpec.length < fuel →
        readPages (fun _ => exOrder) 1 fuel 0 exDocs = some (pages, d2)) ∧
      pages.length = (exDocs.mergedSpec.length + (1 : Int).toNat - 1) / (1 : Int).toNat ∧
      (∀ p ∈ pages, p ≠ [] ∧ (p.length : Int) ≤ 1) ∧
      (∀ p ∈ pages.dropLast, (p.length : Int) = 1) ∧
      ∀ (later : List MapOrder) (o : MapOrder),
        ((d2.afterCalls (later.map (fun x => (x, (1 : Int))))).ReadDir o 1).1 =
          ([], some .EOF) :=
  ⟨rfl, by decide,
   C11_pages_count exStack "docs" exDocs (fun _ => exOrder) 1 rfl (by decide)⟩

/-- C12: `Stat` of a merged directory with no backing handle returns, with a nil
error, the info with the path of the directory as `Name`, `Size` 0, `Mode`
`fs.ModeDir | 0755`, the zero `ModTime` and `IsDir` true; `Stat` of a merged
directory with a backing handle returns what `Stat` of that handle returns. -/
theorem C12_directory_Stat (entries : Option (List DirEntry)) (fs : FS) (path : String) :
    (directory.mk entries fs path none).Stat =
      .ok { Name := path, Size := 0, Mode := ModeDir ||| 0o755,
            ModTime := { wall := 0, ext := 0 }, IsDir := true } ∧
    ModeDir ||| 0o755 = 2147484141 ∧
    ∀ h : File, (directory.mk entries fs path (some h)).Stat = h.Stat :=
  ⟨rfl, by decide, fun _ => rfl⟩

/-- C13: `Read` on a merged directory with no backing handle stores no byte, returns
`fs.ErrInvalid` and leaves the directory as it was; `Read` on a merged directory with
a backing handle returns what `Read` of that handle returns, and the directory then
holds the handle as that call left it. -/
theorem C13_directory_Read (entries : Option (List DirEntry)) (fs : FS) (path : String)
    (k : Nat) :
    (directory.mk entries fs path none).Read k =
      (([], some .ErrInvalid), directory.mk entries fs path none) ∧
    ∀ h : File, (directory.mk entries fs path (some h)).Read k =
      ((h.Read k).1, directory.mk entries fs path (some (h.Read k).2)) :=
  ⟨rfl, fun _ => rfl⟩

/-- C14: `Close` sets the buffer to nil and keeps the path and the layers; with no
backing handle it returns a nil error; with a backing handle it returns what `Close`
of that handle returns, and the handle has then made one step of `Close`. -/
theorem C14_directory_Close (entries : Option (List DirEntry)) (fs : FS) (path : String) :
    (directory.mk entries fs path none).Close = (none, directory.mk none fs path none) ∧
    ∀ h : File, (directory.mk entries fs path (some h)).Close =
        ((h.Close).1, directory.mk none fs path (some (h.Close).2)) ∧
      (h.Close).1 = (h.CloseFn h.state).1 ∧
      (h.Close).2.state = (h.CloseFn h.state).2 :=
  ⟨rfl, fun _ => ⟨rfl, rfl, rfl⟩⟩

/-- C15: on the stack with no layers, `Open(".")` returns a merged directory whose
`Stat` reports a directory and that has no merged entry: after any calls of
`ReadDir`, `ReadDir(n)` returns no entry, with `io.EOF` if `n > 0` and a nil error
if `n <= 0`. -/
theorem C15_empty_stack_root :
    FS.Open New "." =
      .ok (some (.dir { entries := none, FS := New, path := ".", file := none }), none) ∧
    (∃ info, (directory.mk none New "." none).Stat = .ok info ∧ info.IsDir = true) ∧
    (directory.mk none New "." none).mergedSpec = [] ∧
    ∀ (calls : List (MapOrder × Int)) (o : MapOrder) (n : Int),
      (((directory.mk none New "." none).afterCalls calls).ReadDir o n).1 =
        ([], if 0 < n then some .EOF else none) := by
  refine ⟨rfl, ⟨_, rfl, rfl⟩, rfl, fun calls o n => ?_⟩
  have h0 : (directory.mk none New "." none).remaining = 0 := rfl
  have hz := afterCalls_remaining_zero calls _ h0
  obtain ⟨h1, h2, h3⟩ := ReadDir_of_remaining_zero o _ n hz
  by_cases hn : 0 < n
  · simp only [hn, if_true]
    exact Prod.ext h1 (h2 hn)
  · simp only [hn, if_false]
    exact Prod.ext h1 (h3 (by omega))

/-- C20: after any calls of `ReadDir` and then `Close`, the buffer is nil again, and
`ReadDir(n)` with `n <= 0` returns, with a nil error, the whole merged set of the
directory in some order, the entries delivered before the `Close` included. -/
theorem C20_close_resets (d : directory) (calls : List (MapOrder × Int)) (o : MapOrder)
    (n : Int) (hn : n ≤ 0) :
    ((d.afterCalls calls).Close).2.entries = none ∧
    ((((d.afterCalls calls).Close).2.ReadDir o n).1.2 = none) ∧
    (((d.afterCalls calls).Close).2.ReadDir o n).1.1.Perm d.mergedSpec := by
  obtain ⟨hfs, hpath, -⟩ := afterCalls_frame calls d
  have hclose : ((d.afterCalls calls).Close).2.entries = none ∧
      ((d.afterCalls calls).Close).2.FS = d.FS ∧
      ((d.afterCalls calls).Close).2.path = d.path := by
    rw [← hfs, ← hpath]
    generalize d.afterCalls calls = x
    obtain ⟨e, f, p, file⟩ := x
    cases file <;> exact ⟨rfl, rfl, rfl⟩
  obtain ⟨h1, h2, h3⟩ := hclose
  obtain ⟨herr, hperm⟩ := ReadDir_all_perm o ((d.afterCalls calls).Close).2 n hn
  refine ⟨h1, herr, ?_⟩
  have hp : ((d.afterCalls calls).Close).2.pending = d.mergedSpec := by
    simp only [directory.pending, h1]
    rw [merged_eq_mergedSpec]
    simp only [directory.mergedSpec, h2, h3]
  rw [hp] at hperm
  exact hperm

theorem C20_close_resets_witness :
    (0 : Int) ≤ 0 ∧
    ((exDocs.afterCalls [(exOrder, 1), (exOrder, 5)]).Close).2.entries = none ∧
    ((((exDocs.afterCalls [(exOrder, 1), (exOrder, 5)]).Close).2.ReadDir exOrder 0).1.2
      = none) ∧
    (((exDocs.afterCalls [(exOrder, 1), (exOrder, 5)]).Close).2.ReadDir exOrder 0).1.1.Perm
      exDocs.mergedSpec :=
  ⟨by decide, C20_close_resets exDocs [(exOrder, 1), (exOrder, 5)] exOrder 0 (by decide)⟩

end Calls

/-! ## Examples and edge cases of `Open` and `Dir` -/

section Edge

/-- C16: with `A` holding `x` = `1` and `B` holding `x` = `2`, `y` = `3`, added in
the order `A`, `B`: `Open("x")` returns the handle of `B`, which reads `2`;
`Open("y")` returns the handle of `B`, which reads `3`; `ReadDir(n)`, `n <= 0`, on
the directory of `Open(".")` returns the entries of `B` for `x` and `y`, in some
order, with a nil error. -/
theorem C16_example_A_then_B (c1 c2 : Nat → String × Nat × Bool) (o : MapOrder) (n : Int)
    (hn : n ≤ 0) :
    FS.Open (exAB c1 c2) "x" = .ok (some (.file (exFile "x" false [50])), none) ∧
    exB.Open "x" = (some (exFile "x" false [50]), none) ∧
    ((exFile "x" false [50]).Read 512).1 = ([50], none) ∧
    FS.Open (exAB c1 c2) "y" = .ok (some (.file (exFile "y" false [51])), none) ∧
    exB.Open "y" = (some (exFile "y" false [51]), none) ∧
    ((exFile "y" false [51]).Read 512).1 = ([51], none) ∧
    FS.Open (exAB c1 c2) "." =
      .ok (some (.dir { entries := none, FS := exAB c1 c2, path := ".", file := none }), none) ∧
    ((directory.mk none (exAB c1 c2) "." none).ReadDir o n).1.2 = none ∧
    ((directory.mk none (exAB c1 c2) "." none).ReadDir o n).1.1.Perm
      [exEntry "x" false 2, exEntry "y" false 2] ∧
    (exB.ReadDir ".").1 = [exEntry "x" false 2, exEntry "y" false 2] := by
  refine ⟨rfl, rfl, rfl, rfl, rfl, rfl, rfl, ?_, ?_, rfl⟩
  · exact (ReadDir_all_perm o _ n hn).1
  · exact (ReadDir_all_perm o _ n hn).2

theorem C16_example_A_then_B_witness :
    (0 : Int) ≤ 0 ∧
    FS.Open (exAB (fun _ => ("main.go", 3, true)) (fun _ => ("main.go", 4, true))) "x" =
      .ok (some (.file (exFile "x" false [50])), none) ∧
    ((directory.mk none (exAB (fun _ => ("main.go", 3, true)) (fun _ => ("main.go", 4, true)))
        "." none).ReadDir exOrder 0).1.1.Perm [exEntry "x" false 2, exEntry "y" false 2] :=
  ⟨by decide,
   (C16_example_A_then_B (fun _ => ("main.go", 3, true)) (fun _ => ("main.go", 4, true))
      exOrder 0 (by decide)).1,
   (C16_example_A_then_B (fun _ => ("main.go", 3, true)) (fun _ => ("main.go", 4, true))
      exOrder 0 (by decide)).2.2.2.2.2.2.2.2.1⟩

/-- On a backend that is not an `fs.SubFS`, `Dir` succeeds for every valid joined
path other than `.`, whether the backend has that path or not, and `MustDir` returns
the same view. -/
theorem Dir_of_valid (f : Backend) (dir : List String)
    (hv : ValidPath (filepathJoin dir) = true) (hd : filepathJoin dir ≠ ".") :
    Dir f none dir = (some (subFS f (filepathJoin dir)), none) ∧
    MustDir f none dir = .ok (some (subFS f (filepathJoin dir))) := by
  have h : Dir f none dir = (some (subFS f (filepathJoin dir)), none) := by
    simp [Dir, fsSub, hv, hd]
  exact ⟨h, by simp [MustDir, h]⟩

/-- C18, at a path that the backend does not have: the backend fails to open and to
list `missing`, yet `Dir` returns a view and a nil error, and `MustDir` returns that
view and does not panic. -/
theorem C18_Dir_missing_no_error :
    exLow.FS.Open "missing" = (none, some (.PathError "open" "missing" .ErrNotExist)) ∧
    exLow.FS.ReadDir "missing" = ([], some (.PathError "open" "missing" .ErrNotExist)) ∧
    Dir exLow.FS none ["missing"] = (some (subFS exLow.FS "missing"), none) ∧
    MustDir exLow.FS none ["missing"] = .ok (some (subFS exLow.FS "missing")) :=
  ⟨rfl, rfl, rfl, rfl⟩

theorem openLoop_handle_or_error (fs : FS) (name : String) :
    ∀ (layers : List Layer) (acc : Option Handle × Option Error),
      (∀ l ∈ layers, (l.FS.Open name).2 = none → (l.FS.Open name).1 ≠ none) →
      ∃ r, openLoop fs name layers acc = .ok r ∧
        ((layers = [] ∧ r = acc) ∨ (r.1 ≠ none ∧ r.2 = none) ∨ r.2 ≠ none) := by
  intro layers
  induction layers with
  | nil => intro acc _; exact ⟨acc, rfl, Or.inl ⟨rfl, rfl⟩⟩
  | cons l layers ih =>
    intro acc hc
    have hl := hc l (List.mem_cons_self _ _)
    have hrest : ∀ x ∈ layers, (x.FS.Open name).2 = none → (x.FS.Open name).1 ≠ none :=
      fun x hx => hc x (List.mem_cons_of_mem _ hx)
    rcases hopen : l.FS.Open name with ⟨f, e⟩
    rw [hopen] at hl
    cases e with
    | some err =>
      obtain ⟨r, hr, hcase⟩ := ih (f.map Handle.file, some err) hrest
      refine ⟨r, by simp only [openLoop, hopen]; exact hr, Or.inr ?_⟩
      rcases hcase with ⟨-, h2⟩ | h2 | h2
      · right; rw [h2]; simp
      · exact Or.inl h2
      · exact Or.inr h2
    | none =>
      cases f with
      | none => exact absurd rfl (hl rfl)
      | some h =>
        simp only [openLoop, hopen]
        cases h.Stat with
        | error e => exact ⟨_, rfl, Or.inr (Or.inl ⟨by simp, rfl⟩)⟩
        | ok info =>
          cases hi : info.IsDir with
          | false =>
            exact ⟨(some (.file h), none), by simp [hi], Or.inr (Or.inl ⟨by simp, rfl⟩)⟩
          | true =>
            exact ⟨(some (.dir { entries := none, FS := fs, path := name, file := some h }),
              none), by simp [hi], Or.inr (Or.inl ⟨by simp, rfl⟩)⟩

/-- On a stack with at least one layer, when every layer returns a handle or an
error, `FS.Open` returns a handle with a nil error, or an error. -/
theorem open_handle_or_error (fs : FS) (name : String) (hne : fs.Layers ≠ [])
    (hc : ∀ l ∈ fs.Layers, (l.FS.Open name).2 = none → (l.FS.Open name).1 ≠ none) :
    ∃ r, FS.Open fs name = .ok r ∧ ((r.1 ≠ none ∧ r.2 = none) ∨ r.2 ≠ none) := by
  unfold FS.Open
  by_cases h1 : name = "/"
  · exact ⟨(none, some .ErrPermission), by simp [h1], Or.inr (by simp)⟩
  · by_cases h2 : name = "." ∨ name = ""
    · exact ⟨(some (.dir { entries := none, FS := fs, path := name, file := none }), none),
        by simp only [h1, h2, if_false, if_true], Or.inl ⟨by simp, rfl⟩⟩
    · obtain ⟨r, hr, hcase⟩ := openLoop_handle_or_error fs name fs.Layers (none, none) hc
      refine ⟨r, by simp only [h1, h2, if_false]; exact hr, ?_⟩
      rcases hcase with ⟨h3, -⟩ | h3
      · exact absurd h3 hne
      · exact h3

/-- C19, on the stack with no layers: `FS.Open("x")` returns a nil handle together
with a nil error. -/
theorem C19_open_no_layers_nil_nil :
    New.Layers = [] ∧ FS.Open New "x" = .ok (none, none) :=
  ⟨rfl, rfl⟩

end Edge

/-! ## `Add` after `Open` -/

section Memory

theorem read_congr (h1 h2 : Heap) (a b : Nat) (hs : ∀ i, h1.slots a i = h2.slots b i) :
    ∀ k i, h1.read a i k = h2.read b i k := by
  intro k
  induction k with
  | zero => intro i; rfl
  | succ k ih =>
    intro i
    simp only [Heap.read, hs i, ih (i + 1)]

theorem read_list (h : Heap) (a : Nat) :
    ∀ (xs : List Layer) (i : Nat), (∀ j, j < xs.length → h.slots a (i + j) = xs[j]?) →
      h.read a i xs.length = xs := by
  intro xs
  induction xs with
  | nil => intro i _; rfl
  | cons x xs ih =>
    intro i hs
    have h0 := hs 0 (by simp)
    simp only [Nat.add_zero, List.getElem?_cons_zero] at h0
    simp only [List.length_cons, Heap.read, h0]
    congr 1
    apply ih
    intro j hj
    have := hs (j + 1) (by simp; omega)
    simpa [Nat.add_assoc, Nat.add_comm 1 j] using this

/-- The method `Add` writes no array that was there before the call. -/
theorem AddMem_slots (spare : Nat) (h : Heap) (f : Slice) (Caller : Nat → String × Nat × Bool)
    (dir : Backend) (a : Nat) (ha : a < h.next) (i : Nat) :
    (FS.AddMem spare h f Caller dir).1.slots a i = h.slots a i := by
  have hne : a ≠ h.next := by omega
  have hne2 : a ≠ h.next + 1 := by omega
  simp only [FS.AddMem, Heap.append, Heap.literal, List.length_singleton]
  by_cases hfit : 1 + (h.view f).length ≤ 1
  · simp only [hfit, if_true, hne, false_and, if_false]
  · simp only [hfit, if_false, hne, hne2]

/-- The method `Add` on the memory is `FS.Add` on the lists of layers. -/
theorem AddMem_view (spare : Nat) (h : Heap) (f : Slice) (Caller : Nat → String × Nat × Bool)
    (dir : Backend) :
    (FS.AddMem spare h f Caller dir).1.view (FS.AddMem spare h f Caller dir).2 =
      (FS.Add { Layers := h.view f } Caller dir).Layers := by
  simp only [FS.AddMem, FS.Add, Heap.append, Heap.literal, List.length_singleton,
    List.singleton_append]
  generalize h.view f = xs
  generalize ({ FS := dir, Name := _ } : Layer) = l
  have hlen : 1 + xs.length = (l :: xs).length := by simp; omega
  split
  · next hfit =>
    have hxs : xs = [] := List.length_eq_zero.1 (by omega)
    subst hxs
    simp only [Heap.view, List.length_nil, Nat.add_zero]
    apply read_list _ _ [l] 0
    intro j hj
    have hj0 : j = 0 := by simpa using hj
    subst hj0
    simp
  · next hfit =>
    simp only [Heap.view]
    rw [hlen]
    apply read_list _ _ (l :: xs) 0
    intro j hj
    cases j with
    | zero => simp
    | succ j => simp

/-- C17: let a merged directory `d` come from `Open` on a stack whose field `Layers`
was the slice `S`, and let `Add` be called on the stack afterwards. The stack then
has the new layer in front; the slice `S` that `d` holds still shows the layers of
the time of the `Open`; every `ReadDir` on `d`, after any calls, returns what it
returns without the `Add`; and the entries it delivers come from those layers. -/
theorem C17_add_after_open (spare : Nat) (h : Heap) (S : Slice)
    (Caller : Nat → String × Nat × Bool) (l : Backend) (name : String) (d : directory)
    (hS : S.arr < h.next)
    (hopen : FS.Open { Layers := h.view S } name = .ok (some (.dir d), none)) :
    (FS.AddMem spare h S Caller l).1.view (FS.AddMem spare h S Caller l).2 =
      (FS.Add { Layers := h.view S } Caller l).Layers ∧
    (FS.AddMem spare h S Caller l).1.view S = h.view S ∧
    d.FS.Layers = (FS.AddMem spare h S Caller l).1.view S ∧
    (∀ (calls : List (MapOrder × Int)) (o : MapOrder) (n : Int),
      ({ d.afterCalls calls with
          FS := { Layers := (FS.AddMem spare h S Caller l).1.view S } } : directory).ReadDir o n
        = (d.afterCalls calls).ReadDir o n) ∧
    ∀ (o : MapOrder) (n : Int) (e : DirEntry), e ∈ (d.ReadDir o n).1.1 →
      ∃ layer ∈ h.view S, (layer.FS.ReadDir name).2 = none ∧ e ∈ (layer.FS.ReadDir name).1 := by
  obtain ⟨hfresh, hfs, hpath⟩ := open_dir_fresh _ name d hopen
  have hview : (FS.AddMem spare h S Caller l).1.view S = h.view S := by
    simp only [Heap.view]
    exact read_congr _ _ _ _ (fun i => AddMem_slots spare h S Caller l S.arr hS i) _ _
  refine ⟨AddMem_view spare h S Caller l, hview, by rw [hview, hfs], ?_, ?_⟩
  · intro calls o n
    obtain ⟨hf, -, -⟩ := afterCalls_frame calls d
    rw [hview, ← hfs, ← hf]
  · intro o n e he
    obtain ⟨-, -, hperm, -⟩ := ReadDir_summary o d n
    have hmem : e ∈ d.pending := hperm.subset (List.mem_append_left _ he)
    have hpend : d.pending = d.mergedSpec := by
      simp only [directory.pending, hfresh]
      exact merged_eq_mergedSpec d
    rw [hpend] at hmem
    have hl := (firstByName_sublist _).subset hmem
    rw [hpath, hfs] at hl
    exact (mem_listings_iff name e _).1 hl

theorem C17_add_after_open_witness :
    exSlice.arr < exHeap.next ∧
    FS.Open { Layers := exHeap.view exSlice } "docs" = .ok (some (.dir exDocs), none) ∧
    (FS.AddMem 0 exHeap exSlice (fun _ => ("main.go", 9, true)) exA).1.view
        (FS.AddMem 0 exHeap exSlice (fun _ => ("main.go", 9, true)) exA).2 =
      (FS.Add { Layers := exHeap.view exSlice } (fun _ => ("main.go", 9, true)) exA).Layers ∧
    (FS.AddMem 0 exHeap exSlice (fun _ => ("main.go", 9, true)) exA).1.view exSlice =
      exHeap.view exSlice ∧
    exDocs.FS.Layers =
      (FS.AddMem 0 exHeap exSlice (fun _ => ("main.go", 9, true)) exA).1.view exSlice :=
  ⟨by decide, rfl,
   (C17_add_after_open 0 exHeap exSlice (fun _ => ("main.go", 9, true)) exA "docs" exDocs
      (by decide) rfl).1,
   (C17_add_after_open 0 exHeap exSlice (fun _ => ("main.go", 9, true)) exA "docs" exDocs
      (by decide) rfl).2.1,
   (C17_add_after_open 0 exHeap exSlice (fun _ => ("main.go", 9, true)) exA "docs" exDocs
      (by decide) rfl).2.2.1⟩

end Memory

end layerfs
